import Mathlib

/-!
Verification development for the IndexedFile line-indexing engine.

The Rust sources are shallowly embedded: byte sources become a `Reader`
over a `List Nat` of bytes with an explicit position, machine integers
become `Nat` with explicit `% 2^32` / `% 2^64` where the code truncates,
and fallible operations return `Except Error`.  A ghost `seeks` counter
records every explicit seek syscall so seek-elision claims are statable.
-/

namespace IndexedFile

/-- Error taxonomy of src/error.rs.  `IoError` models `Error::Io(_)`. -/
inductive Error where
  | IoError
  | MalformedIndex
  | MissingIndex
  | OutOfBounds
  | UTF8Error
  | NotFound
deriving DecidableEq, Repr

deriving instance DecidableEq for Except

/-- 2^32, the modulus of Rust `u32` arithmetic. -/
def U32M : Nat := 2 ^ 32

/-- 2^64, the modulus of Rust `u64` / `usize` arithmetic. -/
def U64M : Nat := 2 ^ 64

/-- Little-endian fixed-width encoding, as in `to_le_bytes`:
`toLEBytes w n` is the `w`-byte little-endian form of `n mod 2^(8w)`. -/
def toLEBytes : Nat → Nat → List Nat
  | 0, _ => []
  | w + 1, n => n % 256 :: toLEBytes w (n / 256)

/-- Little-endian decoding, as in `from_le_bytes`. -/
def fromLEBytes : List Nat → Nat
  | [] => 0
  | b :: r => b + 256 * fromLEBytes r

/-- A seekable byte source: the embedding of `BufReader<R>` / `Cursor`.
`seeks` is a ghost counter of explicit seek syscalls. -/
structure Reader where
  src : List Nat
  pos : Nat
  seeks : Nat
deriving DecidableEq, Repr

/-- `reader.seek(SeekFrom::Start(off))`. -/
def Reader.seekStart (r : Reader) (off : Nat) : Reader :=
  { r with pos := off, seeks := r.seeks + 1 }

/-- `read_exact` into a buffer of `n` bytes: fails with an I/O error
(UnexpectedEof) if fewer than `n` bytes remain. -/
def Reader.readExact (r : Reader) (n : Nat) : Except Error (List Nat) × Reader :=
  if r.pos + n ≤ r.src.length then
    (.ok ((r.src.drop r.pos).take n), { r with pos := r.pos + n })
  else
    (.error .IoError, r)

/-- `read_to_end`: the remaining bytes, leaving the position at end of stream. -/
def Reader.readToEnd (r : Reader) : List Nat × Reader :=
  (r.src.drop r.pos, { r with pos := r.src.length })

/-- Length of the chunk `read_until(b'\n')` consumes from the front of `l`:
up to and including the first `10` byte, or all of `l` if none occurs. -/
def chunkLen : List Nat → Nat
  | [] => 0
  | b :: rest => if b = 10 then 1 else chunkLen rest + 1

/-- `read_until(b'\n', buf)`: returns the byte count, the bytes read
(terminator included), and the advanced reader. -/
def Reader.readUntilNl (r : Reader) : Nat × List Nat × Reader :=
  let n := chunkLen (r.src.drop r.pos)
  (n, (r.src.drop r.pos).take n, { r with pos := r.pos + n })

/-- Specification-side splitting of a byte list into terminator-delimited
chunks, each chunk keeping its trailing `10` byte; a trailing empty chunk
never appears. -/
def splitNl : List Nat → List (List Nat)
  | [] => []
  | b :: rest =>
    if b = 10 then [b] :: splitNl rest
    else
      match splitNl rest with
      | [] => [[b]]
      | c :: cs => (b :: c) :: cs

/-- Specification-side: a chunk with its trailing terminator stripped. -/
def stripNl (c : List Nat) : List Nat :=
  if c.getLast? = some 10 then c.dropLast else c

/-- Byte offsets of a chunk sequence laid out starting at offset `o`. -/
def offsetsFrom (o : Nat) : List (List Nat) → List Nat
  | [] => []
  | c :: cs => o :: offsetsFrom (o + c.length) cs

/-- Total byte length of a chunk sequence. -/
def sumLen (es : List (List Nat)) : Nat := (es.map List.length).sum

/-- Length of the persisted header in bytes (src/index.rs `HEADER_SIZE`). -/
def HEADER_SIZE : Nat := 8

/-- An index header (src/index.rs `Header`): the number of index entries. -/
structure Header where
  items : Nat
deriving DecidableEq, Repr

/-- `Header::encode`: the entry count as 8 little-endian bytes. -/
def Header.encode (h : Header) : List Nat := toLEBytes 8 h.items

/-- `Header::decode`: seek to the start, read exactly 8 bytes, decode
little-endian. -/
def Header.decode (r : Reader) : Except Error Header × Reader :=
  let r1 := r.seekStart 0
  match r1.readExact 8 with
  | (.ok bs, r2) => (.ok ⟨fromLEBytes bs⟩, r2)
  | (.error e, r2) => (.error e, r2)

/-- The in-memory line index (src/index.rs `Index`): line-start byte
offsets (`u32` values) plus the byte length of the persisted
header-and-body region. -/
structure Index where
  inner : List Nat
  len_bytes : Nat
deriving DecidableEq, Repr

/-- `Index::new`: wraps an offset sequence; `len_bytes` is header size
plus four bytes per entry plus one. -/
def Index.new (l : List Nat) : Index :=
  { inner := l, len_bytes := HEADER_SIZE + (l.length * 4 + 1) }

/-- `Index::len`. -/
def Index.len (idx : Index) : Nat := idx.inner.length

/-- `Index::calc_length`: header size plus four bytes per entry
(note: one less than what `Index::new` records). -/
def Index.calc_length (idx : Index) : Nat := HEADER_SIZE + idx.len * 4

/-- `Index::add`: push one offset and recompute `len_bytes` via
`calc_length`. -/
def Index.add (idx : Index) (pos : Nat) : Index :=
  let i2 : Index := { idx with inner := idx.inner ++ [pos] }
  { i2 with len_bytes := i2.calc_length }

/-- `Extend::extend` for `Index`: append offsets and recompute
`len_bytes` via `calc_length`. -/
def Index.extend (idx : Index) (l : List Nat) : Index :=
  let i2 : Index := { idx with inner := idx.inner ++ l }
  { i2 with len_bytes := i2.calc_length }

/-- `Index::encode`: each offset as 4 little-endian bytes, in order,
followed by a single `b'\n'`; the header is not written here. -/
def Index.encode (idx : Index) : List Nat :=
  (idx.inner.map (toLEBytes 4)).flatten ++ [10]

/-- `Index::get`: the offset at `pos`, or `OutOfBounds`. -/
def Index.get (idx : Index) (pos : Nat) : Except Error Nat :=
  match idx.inner[pos]? with
  | some v => .ok v
  | none => .error .OutOfBounds

/-- `Index::has`. -/
def Index.has (idx : Index) (pos : Nat) : Bool :=
  idx.inner[pos]?.isSome

/-- Modelled from the spec: `Index::get_buffered` is absent from
src/src/index.rs (only its caller in bufreader.rs is present); per the
spec it is the line-to-byte-offset lookup, identical to `Index::get`
modulo an internal decompression buffer. -/
def Index.get_buffered (idx : Index) (pos : Nat) : Except Error Nat :=
  idx.get pos

/-- Modelled from the spec: `Index::get2` is absent from
src/src/index.rs (only its caller in mem_file.rs is present); per the
spec (section 4.4) it is the offset lookup returning absent when
`pos >= len`. -/
def Index.get2 (idx : Index) (pos : Nat) : Option Nat :=
  idx.inner[pos]?

/-- `Index::zero_len`: same offsets, `len_bytes` forced to 0. -/
def Index.zero_len (idx : Index) : Index :=
  { idx with len_bytes := 0 }

/-- `Index::get_header`. -/
def Index.get_header (idx : Index) : Header := ⟨idx.inner.length⟩

theorem chunkLen_le (l : List Nat) : chunkLen l ≤ l.length := by
  induction l with
  | nil => simp [chunkLen]
  | cons b r ih =>
    simp only [chunkLen, List.length_cons]
    split <;> omega

theorem chunkLen_eq_zero_iff (l : List Nat) : chunkLen l = 0 ↔ l = [] := by
  cases l with
  | nil => simp [chunkLen]
  | cons b r =>
    simp only [chunkLen]
    constructor
    · intro h
      split at h <;> omega
    · intro h
      exact absurd h (List.cons_ne_nil b r)

/-- The scan loop of `Index::build`: repeatedly `read_until(b'\n')`;
as long as a nonempty chunk was read, record the offset at which it
began (`as u32`) and advance the offset accumulator (`u64`). -/
def Index.buildLoop (rem : List Nat) (curr : Nat) (acc : List Nat) : List Nat :=
  if h : chunkLen rem = 0 then acc
  else
    Index.buildLoop (rem.drop (chunkLen rem)) ((curr + chunkLen rem) % U64M)
      (acc ++ [curr % U32M])
termination_by rem.length
decreasing_by
  simp only [List.length_drop]
  have hle := chunkLen_le rem
  have hne : rem ≠ [] := by
    intro hnil
    exact h ((chunkLen_eq_zero_iff rem).mpr hnil)
  have : 0 < rem.length := List.length_pos.mpr hne
  omega

/-- `Index::build` on the raw content bytes: offsets of every nonempty
terminator-delimited chunk; the built index carries `len_bytes = 0`. -/
def Index.build (data : List Nat) : Index :=
  { inner := Index.buildLoop data 0 [], len_bytes := 0 }

/-- `Index::build` at the reader level: seeks to the start, scans, and
seeks back to the start before returning. -/
def Index.buildSt (r : Reader) : Index × Reader :=
  let r1 := r.seekStart 0
  (Index.build r1.src, r1.seekStart 0)

/-- The entry-reading loop of `Index::decode`: read 4 bytes per declared
entry and decode each little-endian. -/
def Index.decodeEntries (r : Reader) : Nat → Except Error (List Nat) × Reader
  | 0 => (.ok [], r)
  | k + 1 =>
    match r.readExact 4 with
    | (.error e, r1) => (.error e, r1)
    | (.ok bs, r1) =>
      match Index.decodeEntries r1 k with
      | (.ok rest, r2) => (.ok (fromLEBytes bs :: rest), r2)
      | (.error e, r2) => (.error e, r2)

/-- `Index::decode`: skip the header bytes, read the declared number of
4-byte entries, and wrap them with `Index::new`. -/
def Index.decode (r : Reader) (h : Header) : Except Error Index × Reader :=
  let r1 := r.seekStart HEADER_SIZE
  match Index.decodeEntries r1 h.items with
  | (.ok inner, r2) => (.ok (Index.new inner), r2)
  | (.error e, r2) => (.error e, r2)

/-- `Index::parse_index`: decode the header, then decode the body. -/
def Index.parse_index (r : Reader) : Except Error Index × Reader :=
  match Header.decode r with
  | (.error e, r1) => (.error e, r1)
  | (.ok h, r1) => Index.decode r1 h

/-- `Index::parse_index` applied to a fresh reader over `src`. -/
def parseIndexBytes (src : List Nat) : Except Error Index :=
  (Index.parse_index ⟨src, 0, 0⟩).1

/-- The embedding of `IndexedBufReader` (src/bufreader.rs): a reader,
the shared index, the fast-path tracker `last_line`, and the cached
`curr_pos`. -/
structure IndexedBufReader where
  reader : Reader
  index : Index
  last_line : Option Nat
  curr_pos : Nat
deriving DecidableEq, Repr

/-- `IndexedBufReader::new`: fresh fast-path state. -/
def IndexedBufReader.new (r : Reader) (idx : Index) : IndexedBufReader :=
  { reader := r, index := idx, last_line := none, curr_pos := 0 }

/-- `IndexedBufReader::duplicate`: same index, fresh reader handle,
fast-path state reset. -/
def IndexedBufReader.duplicate (st : IndexedBufReader) (r : Reader) : IndexedBufReader :=
  IndexedBufReader.new r st.index

/-- `Indexable::total_lines`. -/
def IndexedBufReader.total_lines (st : IndexedBufReader) : Nat :=
  st.index.len

/-- `IndexableFile::read_current_line` for `IndexedBufReader`
(src/bufreader.rs lines 70-95): when a next line offset exists, read
exactly `next - curr` bytes (the full span, terminator included);
otherwise read to end of stream.  The `(Except Error _) × _` shape keeps
the mutated receiver on the error path, as `&mut self` does. -/
def IndexedBufReader.readCurrentLine (st : IndexedBufReader) (line : Nat) :
    Except Error (List Nat) × IndexedBufReader :=
  match st.index.get_buffered line with
  | .error e => (.error e, st)
  | .ok curr =>
    match st.index.get_buffered (line + 1) with
    | .ok next =>
      match st.reader.readExact (next - curr) with
      | (.ok bs, r1) => (.ok bs, { st with reader := r1 })
      | (.error e, r1) => (.error e, { st with reader := r1 })
    | .error _ =>
      let res := st.reader.readToEnd
      (.ok res.1, { st with reader := res.2 })

/-- `IndexableFile::seek_line` for `IndexedBufReader` (src/bufreader.rs
lines 97-111): `last_line` is set to the requested line first; if the
request is for `last_line + 1` no seek is issued; otherwise seek to
`offset(line) + index byte length`. -/
def IndexedBufReader.seekLine (st : IndexedBufReader) (line : Nat) :
    Except Error Unit × IndexedBufReader :=
  let st1 : IndexedBufReader := { st with last_line := some line }
  match st.last_line with
  | some l =>
    if line = l + 1 then (.ok (), st1)
    else
      match st1.index.get_buffered line with
      | .error e => (.error e, st1)
      | .ok off =>
        (.ok (), { st1 with reader := st1.reader.seekStart (off + st1.index.len_bytes) })
  | none =>
    match st1.index.get_buffered line with
    | .error e => (.error e, st1)
    | .ok off =>
      (.ok (), { st1 with reader := st1.reader.seekStart (off + st1.index.len_bytes) })

/-- `ReadByLine::read_line_raw`: seek to the line, then read it. -/
def IndexedBufReader.readLineRaw (st : IndexedBufReader) (line : Nat) :
    Except Error (List Nat) × IndexedBufReader :=
  match st.seekLine line with
  | (.ok _, st1) => st1.readCurrentLine line
  | (.error e, st1) => (.error e, st1)

/-- `IndexableFile::write_to` for `IndexedBufReader` (src/bufreader.rs
lines 113-137): emit the encoded header, the encoded index, then the
source bytes from the start of the content region; afterwards seek the
source back to offset 0 and reset `curr_pos`. -/
def IndexedBufReader.writeTo (st : IndexedBufReader) : List Nat × IndexedBufReader :=
  let header := st.index.get_header.encode
  let encoded := st.index.encode
  let r1 := st.reader.seekStart st.index.len_bytes
  let res := r1.readToEnd
  let r3 := res.2.seekStart 0
  (header ++ encoded ++ res.1, { st with reader := r3, curr_pos := 0 })

/-- Lexicographic comparison of byte slices, as `Ord` on `&[u8]`. -/
def compareL : List Nat → List Nat → Ordering
  | [], [] => .eq
  | [], _ :: _ => .lt
  | _ :: _, [] => .gt
  | a :: as1, b :: bs1 =>
    if a < b then .lt else if b < a then .gt else compareL as1 bs1

/-- The rank of an `Ordering`, `lt < eq < gt`, used to state that the
content is sorted under the comparator: the comparator's verdicts over
the lines are monotonically non-decreasing. -/
def ordRank : Ordering → Nat
  | .lt => 0
  | .eq => 1
  | .gt => 2

/-- The loop of `ReadByLine::binary_search_raw_by` (src/lib.rs lines
118-147): while the range is nonempty, probe `mid = left + size / 2`
with `size = right - left`, narrow on less/greater, return on equal;
`NotFound` once the range is empty. -/
def bsLoop (f : List Nat → Ordering) (st : IndexedBufReader) (left right : Nat) :
    Except Error Nat × IndexedBufReader :=
  if h : left < right then
    match st.readLineRaw (left + (right - left) / 2) with
    | (.error e, st1) => (.error e, st1)
    | (.ok bytes, st1) =>
      match f bytes with
      | .lt => bsLoop f st1 (left + (right - left) / 2 + 1) right
      | .gt => bsLoop f st1 left (left + (right - left) / 2)
      | .eq => (.ok (left + (right - left) / 2), st1)
  else (.error .NotFound, st)
termination_by right - left
decreasing_by
  · omega
  · omega

/-- `ReadByLine::binary_search_raw_by`: the loop over `[0, total_lines)`. -/
def IndexedBufReader.binarySearchRawBy (f : List Nat → Ordering)
    (st : IndexedBufReader) : Except Error Nat × IndexedBufReader :=
  bsLoop f st 0 st.total_lines

/-- `ReadByLine::binary_search_raw`. -/
def IndexedBufReader.binarySearchRaw (x : List Nat) (st : IndexedBufReader) :
    Except Error Nat × IndexedBufReader :=
  st.binarySearchRawBy (fun p => compareL p x)

/-- `SharedFile::read_current_line` (src/shared_file.rs lines 46-55):
`read_until(b'\n')`, pop a trailing `10` byte if one was read, and
report the byte count actually consumed (terminator included). -/
def SharedFile.readCurrentLine (r : Reader) : (List Nat × Nat) × Reader :=
  let res := r.readUntilNl
  if 0 < res.1 ∧ res.2.1.getLast? = some 10 then
    ((res.2.1.dropLast, res.1), res.2.2)
  else
    ((res.2.1, res.1), res.2.2)

/-- Modelled from the spec: `Index` implements `Default` (used by
`MemFile::new` in src/mem_file.rs, but no `Default` derive or impl is
present in src/src/index.rs); per the spec (section 3), a
`MutableIndexedStore` index starts empty with `index_byte_length == 0`. -/
def Index.defaultIndex : Index := { inner := [], len_bytes := 0 }

/-- The embedding of `MemFile` (src/mem_file.rs): a contiguous byte
buffer plus its index. -/
structure MemFile where
  data : List Nat
  index : Index
deriving DecidableEq, Repr

/-- `MemFile::new` / `Default::default`. -/
def MemFile.new : MemFile := { data := [], index := Index.defaultIndex }

/-- `MemFile::raw_len`. -/
def MemFile.raw_len (m : MemFile) : Nat := m.data.length

/-- `MemFile::len`. -/
def MemFile.len (m : MemFile) : Nat := m.index.len

/-- `MemFile::insert`: record the current buffer length (`as u32`) as
the new entry's offset, append the bytes, return the new position. -/
def MemFile.insert (m : MemFile) (d : List Nat) : Nat × MemFile :=
  let pos := m.index.len
  (pos, { data := m.data ++ d, index := m.index.add (m.data.length % U32M) })

/-- `MemFile::index_range`: the byte range `[offset(pos), offset(pos+1)
or end-of-buffer)` of entry `pos`. -/
def MemFile.index_range (m : MemFile) (pos : Nat) : Option (Nat × Nat) :=
  match m.index.get2 pos with
  | none => none
  | some s => some (s, (m.index.get2 (pos + 1)).getD m.raw_len)

/-- `MemFile::get`: the byte slice of entry `pos`, absent when out of
range. -/
def MemFile.get (m : MemFile) (pos : Nat) : Option (List Nat) :=
  match m.index_range pos with
  | none => none
  | some se => some ((m.data.drop se.1).take (se.2 - se.1))

/-- `MemFile::replace` (src/mem_file.rs lines 40-50): splice the entry's
byte range with `d`, then shift every offset strictly after `pos` by the
signed length delta (`as u32` truncation on each shifted offset). -/
def MemFile.replace (m : MemFile) (pos : Nat) (d : List Nat) : Option MemFile :=
  match m.index_range pos with
  | none => none
  | some se =>
    let diff : Int := (d.length : Int) - ((se.2 - se.1 : Nat) : Int)
    let inner2 :=
      m.index.inner.take (pos + 1) ++
        (m.index.inner.drop (pos + 1)).map
          (fun x : Nat => (((x : Int) + diff) % (U32M : Int)).toNat)
    some { data := m.data.take se.1 ++ d ++ m.data.drop se.2,
           index := { m.index with inner := inner2 } }

/-! ## Specification-side predicates -/

/-- A reader source and an index fit together: the offsets are exactly
the chunk offsets of the content region (the bytes after the persisted
index, if any), and the content region exists. -/
def WF (src : List Nat) (idx : Index) : Prop :=
  idx.inner = offsetsFrom 0 (splitNl (src.drop idx.len_bytes)) ∧
    idx.len_bytes ≤ src.length

instance (src : List Nat) (idx : Index) : Decidable (WF src idx) :=
  inferInstanceAs (Decidable (_ ∧ _))

/-- Cursor coherence of an `IndexedBufReader`: whenever the fast path
could fire (a tracked `last_line` with a successor offset), the reader
is positioned at the successor line's first byte. -/
def goodB (st : IndexedBufReader) : Bool :=
  match st.last_line with
  | none => true
  | some l =>
    match st.index.inner[l + 1]? with
    | none => true
    | some v => st.reader.pos == v + st.index.len_bytes

/-- Propositional form of `goodB`. -/
def Good (st : IndexedBufReader) : Prop := goodB st = true

instance (st : IndexedBufReader) : Decidable (Good st) :=
  inferInstanceAs (Decidable (_ = _))

/-! ## Byte-encoding lemmas -/

theorem toLEBytes_length (w n : Nat) : (toLEBytes w n).length = w := by
  induction w generalizing n with
  | zero => simp [toLEBytes]
  | succ w ih => simp [toLEBytes, ih]

theorem fromLEBytes_toLEBytes (w n : Nat) (h : n < 2 ^ (8 * w)) :
    fromLEBytes (toLEBytes w n) = n := by
  induction w generalizing n with
  | zero =>
    simp only [toLEBytes, fromLEBytes]
    omega
  | succ w ih =>
    simp only [toLEBytes, fromLEBytes]
    have h2 : n < 2 ^ (8 * w) * 256 := by
      have h3 : 8 * (w + 1) = 8 * w + 8 := by ring
      rw [h3, pow_add] at h
      simpa using h
    rw [ih (n / 256) (by omega)]
    omega

/-! ## Chunk-splitting lemmas -/

theorem splitNl_eq_cons (l : List Nat) (h : l ≠ []) :
    splitNl l = l.take (chunkLen l) :: splitNl (l.drop (chunkLen l)) := by
  induction l with
  | nil => exact absurd rfl h
  | cons b r ih =>
    by_cases hb : b = 10
    · simp [splitNl, chunkLen, hb]
    · by_cases hr : r = []
      · subst hr
        simp [splitNl, chunkLen, hb]
      · have hcons := ih hr
        simp only [splitNl, chunkLen, if_neg hb, hcons, List.take_succ_cons,
          List.drop_succ_cons]

theorem splitNl_nil_iff (l : List Nat) : splitNl l = [] ↔ l = [] := by
  constructor
  · intro h
    by_contra hne
    rw [splitNl_eq_cons l hne] at h
    exact List.cons_ne_nil _ _ h
  · intro h
    simp [h, splitNl]

theorem splitNl_flatten (l : List Nat) : (splitNl l).flatten = l := by
  induction l with
  | nil => simp [splitNl]
  | cons b r ih =>
    by_cases hb : b = 10
    · simp [splitNl, hb, ih]
    · cases hr : splitNl r with
      | nil =>
        have : r = [] := (splitNl_nil_iff r).mp hr
        simp [splitNl, hb, hr, this]
      | cons c cs =>
        rw [hr] at ih
        simp only [splitNl, if_neg hb, hr]
        simp only [List.flatten_cons] at ih ⊢
        simp [ih]

theorem splitNl_ne_nil (l : List Nat) (c : List Nat) (hc : c ∈ splitNl l) :
    c ≠ [] := by
  induction l with
  | nil => simp [splitNl] at hc
  | cons b r ih =>
    by_cases hb : b = 10
    · simp only [splitNl, if_pos hb, List.mem_cons] at hc
      rcases hc with rfl | hc
      · simp
      · exact ih hc
    · cases hr : splitNl r with
      | nil =>
        simp only [splitNl, if_neg hb, hr, List.mem_singleton] at hc
        simp [hc]
      | cons c0 cs =>
        simp only [splitNl, if_neg hb, hr, List.mem_cons] at hc
        rcases hc with rfl | hc
        · simp
        · exact ih (by rw [hr]; exact List.mem_cons_of_mem _ hc)

theorem splitNl_length_le (l : List Nat) : (splitNl l).length ≤ l.length := by
  induction l with
  | nil => simp [splitNl]
  | cons b r ih =>
    by_cases hb : b = 10
    · simp only [splitNl, if_pos hb, List.length_cons]
      omega
    · cases hr : splitNl r with
      | nil => simp [splitNl, if_neg hb, hr]
      | cons c0 cs =>
        simp only [splitNl, if_neg hb, hr, List.length_cons]
        rw [hr] at ih
        simp only [List.length_cons] at ih
        omega

/-! ## Offset-arithmetic lemmas -/

theorem offsetsFrom_length (o : Nat) (es : List (List Nat)) :
    (offsetsFrom o es).length = es.length := by
  induction es generalizing o with
  | nil => simp [offsetsFrom]
  | cons c cs ih => simp [offsetsFrom, ih]

theorem sumLen_nil : sumLen [] = 0 := rfl

theorem sumLen_cons (c : List Nat) (cs : List (List Nat)) :
    sumLen (c :: cs) = c.length + sumLen cs := by
  simp [sumLen]

theorem sumLen_append (a b : List (List Nat)) :
    sumLen (a ++ b) = sumLen a + sumLen b := by
  simp [sumLen]

theorem length_flatten_eq_sumLen (es : List (List Nat)) :
    es.flatten.length = sumLen es := by
  simp [sumLen, List.length_flatten]

theorem offsetsFrom_getElem? (es : List (List Nat)) (o i : Nat) :
    (offsetsFrom o es)[i]? =
      if i < es.length then some (o + sumLen (es.take i)) else none := by
  induction es generalizing o i with
  | nil => simp [offsetsFrom]
  | cons c cs ih =>
    cases i with
    | zero => simp [offsetsFrom, sumLen]
    | succ j =>
      simp only [offsetsFrom, List.getElem?_cons_succ, ih, List.take_succ_cons,
        sumLen_cons, List.length_cons]
      by_cases hj : j < cs.length
      · simp [hj, Nat.succ_lt_succ hj]
        omega
      · simp [hj, fun h => hj (Nat.lt_of_succ_lt_succ h)]

theorem sumLen_take_succ (es : List (List Nat)) (i : Nat) (h : i < es.length) :
    sumLen (es.take (i + 1)) = sumLen (es.take i) + (es.getD i []).length := by
  induction es generalizing i with
  | nil => simp at h
  | cons c cs ih =>
    cases i with
    | zero => simp [sumLen_cons, sumLen_nil, List.getD]
    | succ j =>
      simp only [List.take_succ_cons, sumLen_cons, List.getD_cons_succ]
      rw [ih j (by simpa using h)]
      omega

theorem sumLen_take_le (es : List (List Nat)) (i : Nat) :
    sumLen (es.take i) ≤ sumLen es := by
  conv_rhs => rw [← List.take_append_drop i es]
  rw [sumLen_append]
  omega

theorem sumLen_take_mono (es : List (List Nat)) (i j : Nat) (h : i ≤ j) :
    sumLen (es.take i) ≤ sumLen (es.take j) := by
  have h1 : es.take j = es.take i ++ (es.drop i).take (j - i) := by
    rw [← List.take_add]
    congr 1
    omega
  rw [h1, sumLen_append]
  omega

theorem drop_append_len {α : Type} (l r : List α) (k : Nat) :
    (l ++ r).drop (l.length + k) = r.drop k := by
  induction l with
  | nil => simp
  | cons a l ih => simpa [Nat.succ_add] using ih

theorem take_append_len {α : Type} (l r : List α) (k : Nat) :
    (l ++ r).take (l.length + k) = l ++ r.take k := by
  induction l with
  | nil => simp
  | cons a l ih => simpa [Nat.succ_add] using ih

theorem flatten_drop_sumLen (es : List (List Nat)) (i : Nat) :
    es.flatten.drop (sumLen (es.take i)) = (es.drop i).flatten := by
  induction es generalizing i with
  | nil => simp
  | cons c cs ih =>
    cases i with
    | zero => simp [sumLen_nil]
    | succ j =>
      simp only [List.take_succ_cons, sumLen_cons, List.flatten_cons,
        List.drop_succ_cons]
      rw [drop_append_len, ih]

theorem flatten_take_sumLen (es : List (List Nat)) (i : Nat) :
    es.flatten.take (sumLen (es.take i)) = (es.take i).flatten := by
  induction es generalizing i with
  | nil => simp
  | cons c cs ih =>
    cases i with
    | zero => simp [sumLen_nil]
    | succ j =>
      simp only [List.take_succ_cons, sumLen_cons, List.flatten_cons]
      rw [take_append_len, ih]

theorem flatten_extract_chunk (es : List (List Nat)) (i : Nat)
    (h : i < es.length) :
    (es.flatten.drop (sumLen (es.take i))).take (es.getD i []).length =
      es.getD i [] := by
  rw [flatten_drop_sumLen]
  have h1 : es.drop i = es.getD i [] :: es.drop (i + 1) := by
    rw [List.drop_eq_getElem_cons h]
    congr 1
    simp [List.getD, List.getElem?_eq_getElem h]
  rw [h1, List.flatten_cons, List.take_left]

theorem offsetsFrom_mem_bound (es : List (List Nat)) (o v : Nat)
    (hv : v ∈ offsetsFrom o es) : o ≤ v ∧ v ≤ o + sumLen es := by
  induction es generalizing o with
  | nil => simp [offsetsFrom] at hv
  | cons c cs ih =>
    simp only [offsetsFrom, List.mem_cons] at hv
    rcases hv with rfl | hv
    · omega
    · have := ih (o + c.length) hv
      rw [sumLen_cons]
      omega

/-! ## Build characterization -/

theorem buildLoop_eq (rem : List Nat) (curr : Nat) (acc : List Nat)
    (h : curr + rem.length < U32M) :
    Index.buildLoop rem curr acc = acc ++ offsetsFrom curr (splitNl rem) := by
  by_cases hnil : rem = []
  · subst hnil
    rw [Index.buildLoop]
    simp [chunkLen, splitNl, offsetsFrom]
  · have hn0 : chunkLen rem ≠ 0 := fun hh => hnil ((chunkLen_eq_zero_iff rem).mp hh)
    have hle := chunkLen_le rem
    have hu : U32M ≤ U64M := by norm_num [U32M, U64M]
    rw [Index.buildLoop, dif_neg hn0]
    have hcm : curr % U32M = curr := Nat.mod_eq_of_lt (by omega)
    have hcm2 : (curr + chunkLen rem) % U64M = curr + chunkLen rem :=
      Nat.mod_eq_of_lt (by omega)
    rw [hcm2]
    rw [buildLoop_eq (rem.drop (chunkLen rem)) (curr + chunkLen rem)
      (acc ++ [curr % U32M]) (by simp only [List.length_drop]; omega)]
    rw [splitNl_eq_cons rem hnil]
    simp only [offsetsFrom, List.length_take]
    have hlt : min (chunkLen rem) rem.length = chunkLen rem := by omega
    rw [hlt, hcm, List.append_assoc]
    rfl
termination_by rem.length
decreasing_by
  simp only [List.length_drop]
  have hle := chunkLen_le rem
  have : 0 < rem.length := List.length_pos.mpr hnil
  omega

theorem buildLoop_length (rem : List Nat) (curr : Nat) (acc : List Nat) :
    (Index.buildLoop rem curr acc).length = acc.length + (splitNl rem).length := by
  by_cases hnil : rem = []
  · subst hnil
    rw [Index.buildLoop]
    simp [chunkLen, splitNl]
  · have hn0 : chunkLen rem ≠ 0 := fun hh => hnil ((chunkLen_eq_zero_iff rem).mp hh)
    rw [Index.buildLoop, dif_neg hn0]
    rw [buildLoop_length (rem.drop (chunkLen rem)) _ _]
    rw [splitNl_eq_cons rem hnil]
    simp
    omega
termination_by rem.length
decreasing_by
  simp only [List.length_drop]
  have hle := chunkLen_le rem
  have : 0 < rem.length := List.length_pos.mpr hnil
  omega

theorem build_eq (data : List Nat) (h : data.length < U32M) :
    Index.build data = ⟨offsetsFrom 0 (splitNl data), 0⟩ := by
  unfold Index.build
  rw [buildLoop_eq data 0 [] (by omega)]
  simp

theorem build_length (data : List Nat) :
    (Index.build data).inner.length = (splitNl data).length := by
  unfold Index.build
  rw [buildLoop_length]
  simp

theorem build_wf (data : List Nat) (h : data.length < U32M) :
    WF data (Index.build data) := by
  rw [build_eq data h]
  exact ⟨rfl, by simp⟩

/-! ## Reader correctness -/

theorem readCurrentLine_ok (st : IndexedBufReader) (n : Nat)
    (hwf : WF st.reader.src st.index)
    (hn : n < (splitNl (st.reader.src.drop st.index.len_bytes)).length)
    (hpos : st.reader.pos =
      sumLen ((splitNl (st.reader.src.drop st.index.len_bytes)).take n) +
        st.index.len_bytes) :
    st.readCurrentLine n =
      (.ok ((splitNl (st.reader.src.drop st.index.len_bytes)).getD n []),
       { st with reader := { st.reader with
           pos := st.reader.pos +
             ((splitNl (st.reader.src.drop st.index.len_bytes)).getD n []).length } }) := by
  obtain ⟨hinner, hle⟩ := hwf
  have heq : st.reader.src.drop st.index.len_bytes =
      (splitNl (st.reader.src.drop st.index.len_bytes)).flatten :=
    (splitNl_flatten _).symm
  have hclen : (splitNl (st.reader.src.drop st.index.len_bytes)).flatten.length =
      st.reader.src.length - st.index.len_bytes := by
    rw [← heq, List.length_drop]
  have hgn : st.index.inner[n]? =
      some (sumLen ((splitNl (st.reader.src.drop st.index.len_bytes)).take n)) := by
    rw [hinner, offsetsFrom_getElem?, if_pos hn, Nat.zero_add]
  have hsum : sumLen ((splitNl (st.reader.src.drop st.index.len_bytes)).take (n + 1)) =
      sumLen ((splitNl (st.reader.src.drop st.index.len_bytes)).take n) +
        ((splitNl (st.reader.src.drop st.index.len_bytes)).getD n []).length :=
    sumLen_take_succ _ n hn
  have hsle : sumLen ((splitNl (st.reader.src.drop st.index.len_bytes)).take (n + 1)) ≤
      sumLen (splitNl (st.reader.src.drop st.index.len_bytes)) := sumLen_take_le _ _
  have htot : sumLen (splitNl (st.reader.src.drop st.index.len_bytes)) =
      st.reader.src.length - st.index.len_bytes := by
    rw [← length_flatten_eq_sumLen, hclen]
  have hdropdrop : st.reader.src.drop st.reader.pos =
      (splitNl (st.reader.src.drop st.index.len_bytes)).flatten.drop
        (sumLen ((splitNl (st.reader.src.drop st.index.len_bytes)).take n)) := by
    rw [hpos, ← heq, List.drop_drop]
    congr 1
    omega
  unfold IndexedBufReader.readCurrentLine Index.get_buffered Index.get
  simp only [hgn]
  by_cases hn1 : n + 1 < (splitNl (st.reader.src.drop st.index.len_bytes)).length
  · have hgn1 : st.index.inner[n + 1]? =
        some (sumLen ((splitNl (st.reader.src.drop st.index.len_bytes)).take (n + 1))) := by
      rw [hinner, offsetsFrom_getElem?, if_pos hn1, Nat.zero_add]
    simp only [hgn1]
    unfold Reader.readExact
    have hdiff : sumLen ((splitNl (st.reader.src.drop st.index.len_bytes)).take (n + 1)) -
        sumLen ((splitNl (st.reader.src.drop st.index.len_bytes)).take n) =
        ((splitNl (st.reader.src.drop st.index.len_bytes)).getD n []).length := by
      omega
    rw [hdiff, if_pos (by omega)]
    have hbytes : (st.reader.src.drop st.reader.pos).take
        ((splitNl (st.reader.src.drop st.index.len_bytes)).getD n []).length =
        (splitNl (st.reader.src.drop st.index.len_bytes)).getD n [] := by
      rw [hdropdrop]
      exact flatten_extract_chunk _ n hn
    rw [hbytes]
  · have hgn1 : st.index.inner[n + 1]? = none := by
      rw [hinner, offsetsFrom_getElem?, if_neg hn1]
    simp only [hgn1]
    unfold Reader.readToEnd
    have hlast : n + 1 = (splitNl (st.reader.src.drop st.index.len_bytes)).length := by
      omega
    have hdrop1 : (splitNl (st.reader.src.drop st.index.len_bytes)).drop n =
        [(splitNl (st.reader.src.drop st.index.len_bytes)).getD n []] := by
      rw [List.drop_eq_getElem_cons hn]
      have hnil : (splitNl (st.reader.src.drop st.index.len_bytes)).drop (n + 1) = [] :=
        List.drop_eq_nil_of_le (by omega)
      rw [hnil]
      congr 1
      simp [List.getD, List.getElem?_eq_getElem hn]
    have hbytes : st.reader.src.drop st.reader.pos =
        (splitNl (st.reader.src.drop st.index.len_bytes)).getD n [] := by
      rw [hdropdrop, flatten_drop_sumLen, hdrop1]
      simp
    have hflen : st.reader.src.length = st.reader.pos +
        ((splitNl (st.reader.src.drop st.index.len_bytes)).getD n []).length := by
      have h1 : sumLen ((splitNl (st.reader.src.drop st.index.len_bytes)).take (n + 1)) =
          sumLen (splitNl (st.reader.src.drop st.index.len_bytes)) := by
        rw [List.take_of_length_le (by omega)]
      omega
    rw [hbytes, hflen]

theorem goodB_after (st1 : IndexedBufReader) (n : Nat)
    (hinner : st1.index.inner =
      offsetsFrom 0 (splitNl (st1.reader.src.drop st1.index.len_bytes)))
    (hlast : st1.last_line = some n)
    (hn : n < (splitNl (st1.reader.src.drop st1.index.len_bytes)).length)
    (hpos : st1.reader.pos =
      sumLen ((splitNl (st1.reader.src.drop st1.index.len_bytes)).take (n + 1)) +
        st1.index.len_bytes) :
    Good st1 := by
  have hval : st1.index.inner[n + 1]? =
      if n + 1 < (splitNl (st1.reader.src.drop st1.index.len_bytes)).length
        then some (0 + sumLen ((splitNl (st1.reader.src.drop st1.index.len_bytes)).take (n + 1)))
        else none := by
    rw [hinner, offsetsFrom_getElem?]
  unfold Good goodB
  simp only [hlast, hval]
  by_cases h1 : n + 1 < (splitNl (st1.reader.src.drop st1.index.len_bytes)).length
  · simp only [if_pos h1, Nat.zero_add, beq_iff_eq]
    exact hpos
  · simp only [if_neg h1]

theorem goodB_oob (st1 : IndexedBufReader) (n : Nat)
    (hinner : st1.index.inner =
      offsetsFrom 0 (splitNl (st1.reader.src.drop st1.index.len_bytes)))
    (hlast : st1.last_line = some n)
    (hge : (splitNl (st1.reader.src.drop st1.index.len_bytes)).length ≤ n + 1) :
    Good st1 := by
  have hval : st1.index.inner[n + 1]? = none := by
    rw [hinner, offsetsFrom_getElem?, if_neg (by omega)]
  unfold Good goodB
  simp only [hlast, hval]

/-- The central reader property: under the fit conditions `WF` and
`Good`, reading line `n` returns the `n`-th chunk of the content region
(terminator included, end-of-stream for the last line), or
`OutOfBounds`; the result depends only on the source bytes, the index
and `n`, never on the cursor state, and the conditions are
re-established. -/
theorem readLineRaw_spec (st : IndexedBufReader) (n : Nat)
    (hwf : WF st.reader.src st.index) (hg : Good st) :
    (st.readLineRaw n).1 =
      (if h : n < (splitNl (st.reader.src.drop st.index.len_bytes)).length
        then .ok ((splitNl (st.reader.src.drop st.index.len_bytes)).getD n [])
        else .error .OutOfBounds) ∧
    (st.readLineRaw n).2.reader.src = st.reader.src ∧
    (st.readLineRaw n).2.index = st.index ∧
    (st.readLineRaw n).2.last_line = some n ∧
    Good (st.readLineRaw n).2 := by
  obtain ⟨hinner, hle⟩ := hwf
  by_cases hfast : ∃ l, st.last_line = some l ∧ n = l + 1
  · obtain ⟨l, hll, rfl⟩ := hfast
    have hseek : st.seekLine (l + 1) = (.ok (), { st with last_line := some (l + 1) }) := by
      unfold IndexedBufReader.seekLine
      simp [hll]
    unfold IndexedBufReader.readLineRaw
    simp only [hseek]
    by_cases hn : l + 1 < (splitNl (st.reader.src.drop st.index.len_bytes)).length
    · have hposval : st.index.inner[l + 1]? =
          some (sumLen ((splitNl (st.reader.src.drop st.index.len_bytes)).take (l + 1))) := by
        rw [hinner, offsetsFrom_getElem?, if_pos hn, Nat.zero_add]
      have hpos : st.reader.pos =
          sumLen ((splitNl (st.reader.src.drop st.index.len_bytes)).take (l + 1)) +
            st.index.len_bytes := by
        unfold Good goodB at hg
        simp only [hll, hposval, beq_iff_eq] at hg
        exact hg
      have hrc2 : IndexedBufReader.readCurrentLine { st with last_line := some (l + 1) }
          (l + 1) =
          (.ok ((splitNl (st.reader.src.drop st.index.len_bytes)).getD (l + 1) []),
           { st with last_line := some (l + 1),
                     reader := { st.reader with pos := st.reader.pos +
                       ((splitNl (st.reader.src.drop st.index.len_bytes)).getD
                         (l + 1) []).length } }) :=
        readCurrentLine_ok { st with last_line := some (l + 1) } (l + 1)
          ⟨hinner, hle⟩ hn hpos
      rw [hrc2]
      refine ⟨by rw [dif_pos hn], rfl, rfl, rfl, ?_⟩
      refine goodB_after _ (l + 1) hinner rfl hn ?_
      have hsum := sumLen_take_succ (splitNl (st.reader.src.drop st.index.len_bytes))
        (l + 1) hn
      show st.reader.pos +
          ((splitNl (st.reader.src.drop st.index.len_bytes)).getD (l + 1) []).length =
        sumLen ((splitNl (st.reader.src.drop st.index.len_bytes)).take (l + 1 + 1)) +
          st.index.len_bytes
      omega
    · have hgn : st.index.inner[l + 1]? = none := by
        rw [hinner, offsetsFrom_getElem?, if_neg hn]
      have hrc : IndexedBufReader.readCurrentLine { st with last_line := some (l + 1) }
          (l + 1) = (.error .OutOfBounds, { st with last_line := some (l + 1) }) := by
        unfold IndexedBufReader.readCurrentLine Index.get_buffered Index.get
        simp only [hgn]
      rw [hrc]
      refine ⟨by rw [dif_neg hn], rfl, rfl, rfl, ?_⟩
      exact goodB_oob _ (l + 1) hinner rfl
        (show (splitNl (st.reader.src.drop st.index.len_bytes)).length ≤ l + 1 + 1 by omega)
  · by_cases hn : n < (splitNl (st.reader.src.drop st.index.len_bytes)).length
    · have hgn : st.index.inner[n]? =
          some (sumLen ((splitNl (st.reader.src.drop st.index.len_bytes)).take n)) := by
        rw [hinner, offsetsFrom_getElem?, if_pos hn, Nat.zero_add]
      have hseek : st.seekLine n = (.ok (),
          { st with last_line := some n,
                    reader := st.reader.seekStart
                      (sumLen ((splitNl (st.reader.src.drop st.index.len_bytes)).take n) +
                        st.index.len_bytes) }) := by
        unfold IndexedBufReader.seekLine Index.get_buffered Index.get
        cases hll : st.last_line with
        | none => simp only [hgn]
        | some l =>
          have hne : n ≠ l + 1 := fun hc => hfast ⟨l, hll, hc⟩
          simp only [hgn, if_neg hne]
      unfold IndexedBufReader.readLineRaw
      simp only [hseek]
      have hrc2 : IndexedBufReader.readCurrentLine
          { st with last_line := some n,
                    reader := st.reader.seekStart
                      (sumLen ((splitNl (st.reader.src.drop st.index.len_bytes)).take n) +
                        st.index.len_bytes) } n =
          (.ok ((splitNl (st.reader.src.drop st.index.len_bytes)).getD n []),
           { st with last_line := some n,
                     reader := { st.reader with
                       pos := sumLen ((splitNl (st.reader.src.drop st.index.len_bytes)).take n) +
                         st.index.len_bytes +
                         ((splitNl (st.reader.src.drop st.index.len_bytes)).getD n []).length,
                       seeks := st.reader.seeks + 1 } }) :=
        readCurrentLine_ok
          { st with last_line := some n,
                    reader := st.reader.seekStart
                      (sumLen ((splitNl (st.reader.src.drop st.index.len_bytes)).take n) +
                        st.index.len_bytes) } n ⟨hinner, hle⟩ hn rfl
      rw [hrc2]
      refine ⟨by rw [dif_pos hn], rfl, rfl, rfl, ?_⟩
      refine goodB_after _ n hinner rfl hn ?_
      have hsum := sumLen_take_succ (splitNl (st.reader.src.drop st.index.len_bytes)) n hn
      show sumLen ((splitNl (st.reader.src.drop st.index.len_bytes)).take n) +
            st.index.len_bytes +
            ((splitNl (st.reader.src.drop st.index.len_bytes)).getD n []).length =
        sumLen ((splitNl (st.reader.src.drop st.index.len_bytes)).take (n + 1)) +
          st.index.len_bytes
      omega
    · have hgn : st.index.inner[n]? = none := by
        rw [hinner, offsetsFrom_getElem?, if_neg hn]
      have hseek : st.seekLine n = (.error .OutOfBounds, { st with last_line := some n }) := by
        unfold IndexedBufReader.seekLine Index.get_buffered Index.get
        cases hll : st.last_line with
        | none => simp only [hgn]
        | some l =>
          have hne : n ≠ l + 1 := fun hc => hfast ⟨l, hll, hc⟩
          simp only [hgn, if_neg hne]
      unfold IndexedBufReader.readLineRaw
      simp only [hseek]
      refine ⟨by rw [dif_neg hn], trivial, trivial, trivial, ?_⟩
      exact goodB_oob _ n hinner rfl
        (show (splitNl (st.reader.src.drop st.index.len_bytes)).length ≤ n + 1 by omega)

/-- Out-of-range requests: with no well-formedness assumption at all,
`read_line_raw(n)` for `n ≥ index entries` fails with `OutOfBounds`
before any read or seek, but still records `n` in `last_line`. -/
theorem readLineRaw_oob (st : IndexedBufReader) (n : Nat)
    (hge : st.index.inner.length ≤ n) :
    st.readLineRaw n = (.error .OutOfBounds, { st with last_line := some n }) := by
  have hgn : st.index.inner[n]? = none := List.getElem?_eq_none hge
  unfold IndexedBufReader.readLineRaw IndexedBufReader.seekLine
    IndexedBufReader.readCurrentLine Index.get_buffered Index.get
  cases hll : st.last_line with
  | none => simp only [hgn]
  | some l =>
    by_cases hc : n = l + 1
    · simp only [if_pos hc, hgn]
    · simp only [if_neg hc, hgn]

/-- The fast path: a request for `last_line + 1` issues no seek and does
not touch the reader at all, regardless of whether the previous line's
bytes were consumed. -/
theorem seekLine_fast (st : IndexedBufReader) (l : Nat)
    (hll : st.last_line = some l) :
    st.seekLine (l + 1) = (.ok (), { st with last_line := some (l + 1) }) := by
  unfold IndexedBufReader.seekLine
  simp [hll]

/-- The slow path: any non-consecutive in-range request issues exactly
one explicit seek, to `offset(n) + index byte length`. -/
theorem seekLine_slow (st : IndexedBufReader) (n v : Nat)
    (hnc : ∀ l, st.last_line = some l → n ≠ l + 1)
    (hv : st.index.inner[n]? = some v) :
    st.seekLine n = (.ok (),
      { st with last_line := some n,
                reader := { st.reader with
                            pos := v + st.index.len_bytes,
                            seeks := st.reader.seeks + 1 } }) := by
  unfold IndexedBufReader.seekLine Index.get_buffered Index.get Reader.seekStart
  cases hll : st.last_line with
  | none => simp only [hv]
  | some l => simp only [hv, if_neg (hnc l hll)]

/-- The literal output and final state of `write_to`: header, encoded
index, then the content region; the reader ends seeked to offset 0. -/
theorem writeTo_spec (st : IndexedBufReader) :
    st.writeTo =
      (st.index.get_header.encode ++ st.index.encode ++
        st.reader.src.drop st.index.len_bytes,
       { st with reader := { st.reader with pos := 0, seeks := st.reader.seeks + 2 },
                 curr_pos := 0 }) := rfl

theorem map_const_sum {α : Type} (l : List α) (c : Nat) :
    (l.map fun _ => c).sum = c * l.length := by
  induction l with
  | nil => simp
  | cons a l ih =>
    simp only [List.map_cons, List.sum_cons, ih, List.length_cons]
    ring

theorem encode_length (idx : Index) :
    idx.encode.length = 4 * idx.inner.length + 1 := by
  unfold Index.encode
  rw [List.length_append, List.length_flatten, List.map_map]
  have h1 : (idx.inner.map (List.length ∘ toLEBytes 4)) = idx.inner.map fun _ => 4 := by
    apply List.map_congr_left
    intro a _
    simp [toLEBytes_length]
  rw [h1, map_const_sum]
  simp

theorem header_encode_length (h : Header) : h.encode.length = 8 :=
  toLEBytes_length 8 h.items

/-! ## MemFile refinement -/

/-- `m` faithfully represents the abstract entry list `es`: the buffer is
the concatenation of the entries, the index holds their offsets, and the
total size stays below the `u32` offset range (the spec's numeric
contract for offsets, section 4.1). -/
def MemInv (m : MemFile) (es : List (List Nat)) : Prop :=
  m.data = es.flatten ∧ m.index.inner = offsetsFrom 0 es ∧ es.flatten.length < U32M

instance (m : MemFile) (es : List (List Nat)) : Decidable (MemInv m es) :=
  inferInstanceAs (Decidable (_ ∧ _ ∧ _))

theorem offsetsFrom_shift (es : List (List Nat)) (a k : Nat) :
    offsetsFrom (a + k) es = (offsetsFrom a es).map (· + k) := by
  induction es generalizing a with
  | nil => simp [offsetsFrom]
  | cons c cs ih =>
    simp only [offsetsFrom, List.map_cons]
    congr 1
    have h1 : a + k + c.length = a + c.length + k := by ring
    rw [h1, ih]

theorem offsetsFrom_append (a b : List (List Nat)) (o : Nat) :
    offsetsFrom o (a ++ b) = offsetsFrom o a ++ offsetsFrom (o + sumLen a) b := by
  induction a generalizing o with
  | nil => simp [offsetsFrom, sumLen_nil]
  | cons c cs ih =>
    simp only [List.cons_append, List.append_eq, offsetsFrom, sumLen_cons]
    congr 1
    rw [ih (o + c.length), Nat.add_assoc]

theorem sumLen_set (es : List (List Nat)) (p : Nat) (d : List Nat)
    (hp : p < es.length) :
    sumLen (es.set p d) + (es.getD p []).length = sumLen es + d.length := by
  induction es generalizing p with
  | nil => simp at hp
  | cons c cs ih =>
    cases p with
    | zero => simp [sumLen_cons, List.getD]; ring
    | succ q =>
      simp only [List.set_cons_succ, sumLen_cons, List.getD_cons_succ]
      have := ih q (by simpa using hp)
      omega

theorem flatten_set (es : List (List Nat)) (p : Nat) (d : List Nat)
    (hp : p < es.length) :
    (es.set p d).flatten =
      (es.take p).flatten ++ (d ++ (es.drop (p + 1)).flatten) := by
  rw [List.set_eq_take_append_cons_drop, if_pos hp]
  simp

theorem offsetsFrom_set (es : List (List Nat)) (o p : Nat) (d : List Nat)
    (hp : p < es.length) :
    offsetsFrom o (es.set p d) =
      (offsetsFrom o es).take (p + 1) ++
        ((offsetsFrom o es).drop (p + 1)).map
          (fun x => x + d.length - (es.getD p []).length) := by
  induction es generalizing o p with
  | nil => simp at hp
  | cons c cs ih =>
    cases p with
    | zero =>
      simp only [List.set_cons_zero, offsetsFrom, List.getD_cons_zero,
        List.take_succ_cons, List.take_zero, List.drop_succ_cons, List.drop_zero,
        List.cons_append, List.nil_append]
      congr 1
      have h2 : offsetsFrom (o + c.length) cs = (offsetsFrom o cs).map (· + c.length) :=
        offsetsFrom_shift cs o c.length
      have h3 : offsetsFrom (o + d.length) cs = (offsetsFrom o cs).map (· + d.length) :=
        offsetsFrom_shift cs o d.length
      rw [h2, h3, List.map_map]
      apply List.map_congr_left
      intro a _
      simp only [Function.comp_apply]
      omega
    | succ q =>
      simp only [List.set_cons_succ, offsetsFrom, List.getD_cons_succ,
        List.take_succ_cons, List.drop_succ_cons, List.cons_append]
      congr 1
      exact ih (o + c.length) q (by simpa using hp)

theorem mem_offsetsFrom_char (es : List (List Nat)) (o k x : Nat)
    (hx : x ∈ (offsetsFrom o es).drop k) :
    ∃ j, k + j < es.length ∧ x = o + sumLen (es.take (k + j)) := by
  obtain ⟨j, hj, hget⟩ := List.getElem_of_mem hx
  have h1 : ((offsetsFrom o es).drop k)[j]? = some x := by
    rw [List.getElem?_eq_getElem hj]
    exact congrArg some hget
  rw [List.getElem?_drop, offsetsFrom_getElem?] at h1
  by_cases hlt : k + j < es.length
  · rw [if_pos hlt] at h1
    exact ⟨j, hlt, by injection h1 with h2; omega⟩
  · rw [if_neg hlt] at h1
    exact absurd h1 (by simp)

theorem mem_index_range_spec (m : MemFile) (es : List (List Nat))
    (hinv : MemInv m es) (p : Nat) (hp : p < es.length) :
    m.index_range p = some (sumLen (es.take p), sumLen (es.take (p + 1))) := by
  obtain ⟨hdata, hinner, hbound⟩ := hinv
  have hs : m.index.get2 p = some (sumLen (es.take p)) := by
    unfold Index.get2
    rw [hinner, offsetsFrom_getElem?, if_pos hp, Nat.zero_add]
  unfold MemFile.index_range
  rw [hs]
  by_cases hp1 : p + 1 < es.length
  · have he : m.index.get2 (p + 1) = some (sumLen (es.take (p + 1))) := by
      unfold Index.get2
      rw [hinner, offsetsFrom_getElem?, if_pos hp1, Nat.zero_add]
    rw [he]
    rfl
  · have he : m.index.get2 (p + 1) = none := by
      unfold Index.get2
      rw [hinner, offsetsFrom_getElem?, if_neg hp1]
    rw [he]
    have htake : es.take (p + 1) = es := List.take_of_length_le (by omega)
    have hlen : m.raw_len = sumLen (es.take (p + 1)) := by
      unfold MemFile.raw_len
      rw [hdata, length_flatten_eq_sumLen, htake]
    simp [hlen]

theorem mem_index_range_none (m : MemFile) (es : List (List Nat))
    (hinv : MemInv m es) (p : Nat) (hp : es.length ≤ p) :
    m.index_range p = none := by
  obtain ⟨hdata, hinner, hbound⟩ := hinv
  have hs : m.index.get2 p = none := by
    unfold Index.get2
    rw [hinner, offsetsFrom_getElem?, if_neg (by omega)]
  unfold MemFile.index_range
  rw [hs]

theorem mem_get_spec (m : MemFile) (es : List (List Nat))
    (hinv : MemInv m es) (p : Nat) :
    m.get p = es[p]? := by
  by_cases hp : p < es.length
  · have hr := mem_index_range_spec m es hinv p hp
    unfold MemFile.get
    simp only [hr]
    have hdiff : sumLen (es.take (p + 1)) - sumLen (es.take p) = (es.getD p []).length := by
      have := sumLen_take_succ es p hp
      omega
    have hchunk : (m.data.drop (sumLen (es.take p))).take
        (sumLen (es.take (p + 1)) - sumLen (es.take p)) = es.getD p [] := by
      rw [hdiff, hinv.1]
      exact flatten_extract_chunk es p hp
    rw [hchunk, List.getElem?_eq_getElem hp]
    congr 1
    simp [List.getD, List.getElem?_eq_getElem hp]
  · have hr := mem_index_range_none m es hinv p (by omega)
    unfold MemFile.get
    simp only [hr, List.getElem?_eq_none (show es.length ≤ p by omega)]

theorem mem_insert_spec (m : MemFile) (es : List (List Nat))
    (hinv : MemInv m es) (d : List Nat)
    (hb : es.flatten.length + d.length < U32M) :
    (m.insert d).1 = es.length ∧ MemInv (m.insert d).2 (es ++ [d]) := by
  obtain ⟨hdata, hinner, hbound⟩ := hinv
  constructor
  · show m.index.len = es.length
    unfold Index.len
    rw [hinner, offsetsFrom_length]
  · refine ⟨?_, ?_, ?_⟩
    · show m.data ++ d = (es ++ [d]).flatten
      rw [hdata]
      simp
    · show (m.index.add (m.data.length % U32M)).inner = offsetsFrom 0 (es ++ [d])
      unfold Index.add
      show m.index.inner ++ [m.data.length % U32M] = _
      have hmod : m.data.length % U32M = m.data.length :=
        Nat.mod_eq_of_lt (by rw [hdata]; omega)
      rw [hmod, hinner, offsetsFrom_append]
      have hlen : m.data.length = sumLen es := by
        rw [hdata, length_flatten_eq_sumLen]
      rw [hlen]
      simp [offsetsFrom]
    · simp only [List.flatten_append, List.flatten_cons, List.flatten_nil,
        List.append_nil, List.length_append]
      omega

theorem mem_replace_none (m : MemFile) (es : List (List Nat))
    (hinv : MemInv m es) (p : Nat) (d : List Nat) (hp : es.length ≤ p) :
    m.replace p d = none := by
  unfold MemFile.replace
  rw [mem_index_range_none m es hinv p hp]

theorem mem_replace_spec (m : MemFile) (es : List (List Nat))
    (hinv : MemInv m es) (p : Nat) (d : List Nat) (hp : p < es.length)
    (hb : es.flatten.length + d.length < U32M) :
    m.replace p d = some
      { data := (es.set p d).flatten,
        index := { m.index with inner := offsetsFrom 0 (es.set p d) } } ∧
    MemInv { data := (es.set p d).flatten,
             index := { m.index with inner := offsetsFrom 0 (es.set p d) } }
      (es.set p d) := by
  obtain ⟨hdata, hinner, hbound⟩ := hinv
  have hr := mem_index_range_spec m es ⟨hdata, hinner, hbound⟩ p hp
  have hsumset := sumLen_set es p d hp
  have hgdle : (es.getD p []).length ≤ sumLen (es.take (p + 1)) := by
    have := sumLen_take_succ es p hp
    omega
  have hflatset : (es.set p d).flatten.length = sumLen (es.set p d) :=
    length_flatten_eq_sumLen _
  have hflat : es.flatten.length = sumLen es := length_flatten_eq_sumLen _
  have hnewbound : (es.set p d).flatten.length < U32M := by
    rw [hflatset]
    omega
  have hdata2 : m.data.take (sumLen (es.take p)) ++ d ++
      m.data.drop (sumLen (es.take (p + 1))) = (es.set p d).flatten := by
    rw [hdata, flatten_take_sumLen, flatten_drop_sumLen, flatten_set es p d hp,
      List.append_assoc]
  have hshift : ((offsetsFrom 0 es).drop (p + 1)).map
        (fun x : Nat => (((x : Int) + ((d.length : Int) -
          ((sumLen (es.take (p + 1)) - sumLen (es.take p) : Nat) : Int))) %
            (U32M : Int)).toNat) =
      ((offsetsFrom 0 es).drop (p + 1)).map
        (fun x : Nat => x + d.length - (es.getD p []).length) := by
    apply List.map_congr_left
    intro x hx
    obtain ⟨j, hj, hxval⟩ := mem_offsetsFrom_char es 0 (p + 1) x hx
    have hxge : sumLen (es.take (p + 1)) ≤ x := by
      have := sumLen_take_mono es (p + 1) (p + 1 + j) (by omega)
      omega
    have hxle : x ≤ sumLen es := by
      have := sumLen_take_le es (p + 1 + j)
      omega
    have hdiffeq : sumLen (es.take (p + 1)) - sumLen (es.take p) =
        (es.getD p []).length := by
      have := sumLen_take_succ es p hp
      omega
    rw [hdiffeq]
    have hval : ((x : Int) + ((d.length : Int) - ((es.getD p []).length : Int))) =
        ((x + d.length - (es.getD p []).length : Nat) : Int) := by
      push_cast
      omega
    have hlt2 : ((x + d.length - (es.getD p []).length : Nat) : Int) < (U32M : Int) := by
      have hlt3 : x + d.length - (es.getD p []).length < U32M := by omega
      exact_mod_cast hlt3
    rw [hval, Int.emod_eq_of_lt (Int.natCast_nonneg _) hlt2]
    simp
  constructor
  · unfold MemFile.replace
    rw [hr]
    simp only
    rw [hdata2]
    congr 2
    rw [hinner, offsetsFrom_set es 0 p d hp, hshift]
  · exact ⟨rfl, rfl, hnewbound⟩

/-! ## Codec correctness -/

theorem readExact_src (r : Reader) (n : Nat) : (r.readExact n).2.src = r.src := by
  unfold Reader.readExact
  split <;> rfl

theorem decodeEntries_src (r : Reader) (k : Nat) :
    (Index.decodeEntries r k).2.src = r.src := by
  induction k generalizing r with
  | zero => rfl
  | succ k ih =>
    unfold Index.decodeEntries
    cases hre : r.readExact 4 with
    | mk res r1 =>
      have h1 : r1.src = r.src := by
        have h0 := readExact_src r 4
        rw [hre] at h0
        exact h0
      cases res with
      | error e => simp only [hre, h1]
      | ok bs =>
        cases hde : Index.decodeEntries r1 k with
        | mk res2 r2 =>
          have h2 : r2.src = r1.src := by
            have h0 := ih r1
            rw [hde] at h0
            exact h0
          cases res2 with
          | ok rest => simp only [hre, hde, h2, h1]
          | error e => simp only [hre, hde, h2, h1]

theorem parse_index_src (r : Reader) : (Index.parse_index r).2.src = r.src := by
  unfold Index.parse_index Header.decode Index.decode
  cases hre : (r.seekStart 0).readExact 8 with
  | mk res r1 =>
    have h1 : r1.src = r.src := by
      have h0 := readExact_src (r.seekStart 0) 8
      rw [hre] at h0
      exact h0
    cases res with
    | error e => simp only [hre, h1]
    | ok bs =>
      cases hde : Index.decodeEntries (r1.seekStart HEADER_SIZE) (fromLEBytes bs) with
      | mk res2 r2 =>
        have h2 : r2.src = r1.src := by
          have h0 := decodeEntries_src (r1.seekStart HEADER_SIZE) (fromLEBytes bs)
          rw [hde] at h0
          exact h0
        cases res2 with
        | ok inner => simp only [hre, hde, h2, h1]
        | error e => simp only [hre, hde, h2, h1]

theorem decodeEntries_ok (vals : List Nat) :
    ∀ (r : Reader) (rest : List Nat), (∀ v ∈ vals, v < U32M) →
    r.src.drop r.pos = (vals.map (toLEBytes 4)).flatten ++ rest →
    Index.decodeEntries r vals.length =
      (.ok vals, { r with pos := r.pos + 4 * vals.length }) := by
  induction vals with
  | nil =>
    intro r rest hb hsrc
    have h0 : r.pos + 4 * ([] : List Nat).length = r.pos := by simp
    rw [h0]
    rfl
  | cons v vs ih =>
    intro r rest hb hsrc
    have hlen4 : (toLEBytes 4 v).length = 4 := toLEBytes_length 4 v
    have hdroplen : (r.src.drop r.pos).length = r.src.length - r.pos :=
      List.length_drop _ _
    have hsrclen : 4 ≤ (r.src.drop r.pos).length := by
      rw [hsrc]
      simp only [List.map_cons, List.flatten_cons, List.append_assoc,
        List.length_append, hlen4]
      omega
    have hre : r.readExact 4 = (.ok (toLEBytes 4 v), { r with pos := r.pos + 4 }) := by
      unfold Reader.readExact
      rw [if_pos (by omega)]
      congr 2
      rw [hsrc]
      simp only [List.map_cons, List.flatten_cons, List.append_assoc]
      exact List.take_left' hlen4
    show Index.decodeEntries r (vs.length + 1) = _
    unfold Index.decodeEntries
    have hrec : Index.decodeEntries { r with pos := r.pos + 4 } vs.length =
        (.ok vs, { r with pos := (r.pos + 4) + 4 * vs.length }) := by
      apply ih { r with pos := r.pos + 4 } rest
        (fun w hw => hb w (List.mem_cons_of_mem v hw))
      show r.src.drop (r.pos + 4) = _
      have hdd : r.src.drop (r.pos + 4) = (r.src.drop r.pos).drop 4 := by
        rw [List.drop_drop]
      rw [hdd, hsrc]
      simp only [List.map_cons, List.flatten_cons, List.append_assoc]
      exact List.drop_left' hlen4
    have hv4 : fromLEBytes (toLEBytes 4 v) = v := by
      apply fromLEBytes_toLEBytes
      have hvm := hb v (List.mem_cons_self v vs)
      have h2u : (2:Nat) ^ (8 * 4) = U32M := by norm_num [U32M]
      omega
    simp only [hre, hrec, hv4, List.length_cons]
    have hpos : r.pos + 4 + 4 * vs.length = r.pos + 4 * (vs.length + 1) := by omega
    rw [hpos]

/-- Parsing a well-formed header-plus-body prefix recovers exactly the
encoded offsets, wrapped with `Index::new`. -/
theorem parse_index_ok (items : List Nat) (tail : List Nat)
    (hb : ∀ v ∈ items, v < U32M) (hn : items.length < U64M) (src : List Nat)
    (hsrc : src = toLEBytes 8 items.length ++ ((items.map (toLEBytes 4)).flatten ++ tail)) :
    (Index.parse_index ⟨src, 0, 0⟩).1 = .ok (Index.new items) := by
  have hlen8 : (toLEBytes 8 items.length).length = 8 := toLEBytes_length 8 _
  have hsrclen : 8 ≤ src.length := by
    rw [hsrc]
    simp only [List.length_append, hlen8]
    omega
  have hre : (Reader.seekStart ⟨src, 0, 0⟩ 0).readExact 8 =
      (.ok (toLEBytes 8 items.length), { src := src, pos := 8, seeks := 1 }) := by
    show Reader.readExact ⟨src, 0, 1⟩ 8 = _
    unfold Reader.readExact
    rw [if_pos (show (⟨src, 0, 1⟩ : Reader).pos + 8 ≤ src.length by
      simp only
      omega)]
    congr 2
    show (src.drop 0).take 8 = _
    rw [List.drop_zero, hsrc]
    exact List.take_left' hlen8
  have hitems : fromLEBytes (toLEBytes 8 items.length) = items.length := by
    apply fromLEBytes_toLEBytes
    have h2u : (2:Nat) ^ (8 * 8) = U64M := by norm_num [U64M]
    omega
  have hde0 : Index.decodeEntries (⟨src, HEADER_SIZE, 2⟩ : Reader) items.length =
      (.ok items, { src := src, pos := HEADER_SIZE + 4 * items.length, seeks := 2 }) := by
    apply decodeEntries_ok items (⟨src, HEADER_SIZE, 2⟩ : Reader) tail hb
    show src.drop HEADER_SIZE = _
    rw [hsrc]
    show (toLEBytes 8 items.length ++ _).drop 8 = _
    exact List.drop_left' hlen8
  have hde : Index.decodeEntries
      (Reader.seekStart { src := src, pos := 8, seeks := 1 } HEADER_SIZE)
      items.length =
      (.ok items, { src := src, pos := HEADER_SIZE + 4 * items.length, seeks := 2 }) := hde0
  unfold Index.parse_index Header.decode Index.decode
  simp only [hre, hitems, hde]

/-! ## Binary-search correctness -/

theorem bsLoop_spec (f : List Nat → Ordering) (src : List Nat) (idx : Index) :
    ∀ (k left right : Nat) (st : IndexedBufReader),
    st.reader.src = src → st.index = idx → WF src idx → Good st →
    right ≤ (splitNl (src.drop idx.len_bytes)).length → right - left ≤ k →
    (∀ i, (bsLoop f st left right).1 = .ok i →
      i < (splitNl (src.drop idx.len_bytes)).length ∧
      f ((splitNl (src.drop idx.len_bytes)).getD i []) = .eq) ∧
    ((∀ j, j < (splitNl (src.drop idx.len_bytes)).length →
        f ((splitNl (src.drop idx.len_bytes)).getD j []) ≠ .eq) →
      (bsLoop f st left right).1 = .error .NotFound) := by
  intro k
  induction k with
  | zero =>
    intro left right st hsrc hidx hwf hg hright hk
    have hnl : ¬ left < right := by omega
    rw [bsLoop, dif_neg hnl]
    exact ⟨fun i hi => by simp at hi, fun _ => rfl⟩
  | succ k ih =>
    intro left right st hsrc hidx hwf hg hright hk
    by_cases hlr : left < right
    · have hmid : left + (right - left) / 2 <
          (splitNl (src.drop idx.len_bytes)).length := by omega
      have hspec := readLineRaw_spec st (left + (right - left) / 2)
        (by rw [hsrc, hidx]; exact hwf) hg
      rw [hsrc, hidx] at hspec
      obtain ⟨hval, hsrc1, hidx1, hlast1, hg1⟩ := hspec
      rw [dif_pos hmid] at hval
      cases hrl : st.readLineRaw (left + (right - left) / 2) with
      | mk res st1 =>
        rw [hrl] at hval hsrc1 hidx1 hg1
        simp only at hval hsrc1 hidx1 hg1
        subst hval
        rw [bsLoop, dif_pos hlr]
        simp only [hrl]
        cases hf : f ((splitNl (src.drop idx.len_bytes)).getD
            (left + (right - left) / 2) []) with
        | eq =>
          refine ⟨fun i hi => ?_, fun hno => ?_⟩
          · simp only [Except.ok.injEq] at hi
            subst hi
            exact ⟨hmid, hf⟩
          · exact absurd hf (hno _ hmid)
        | lt =>
          have := ih (left + (right - left) / 2 + 1) right st1 hsrc1 hidx1 hwf hg1
            hright (by omega)
          exact this
        | gt =>
          have := ih left (left + (right - left) / 2) st1 hsrc1 hidx1 hwf hg1
            (by omega) (by omega)
          exact this
    · rw [bsLoop, dif_neg hlr]
      exact ⟨fun i hi => by simp at hi, fun _ => rfl⟩

theorem bsLoop_complete (f : List Nat → Ordering) (src : List Nat) (idx : Index)
    (hsort : ∀ i j, i ≤ j → j < (splitNl (src.drop idx.len_bytes)).length →
      ordRank (f ((splitNl (src.drop idx.len_bytes)).getD i [])) ≤
        ordRank (f ((splitNl (src.drop idx.len_bytes)).getD j []))) :
    ∀ (k left right : Nat) (st : IndexedBufReader),
    st.reader.src = src → st.index = idx → WF src idx → Good st →
    right ≤ (splitNl (src.drop idx.len_bytes)).length → right - left ≤ k →
    (∃ m, left ≤ m ∧ m < right ∧
      f ((splitNl (src.drop idx.len_bytes)).getD m []) = .eq) →
    ∃ i, (bsLoop f st left right).1 = .ok i := by
  intro k
  induction k with
  | zero =>
    intro left right st hsrc hidx hwf hg hright hk hex
    obtain ⟨m, hm1, hm2, _⟩ := hex
    omega
  | succ k ih =>
    intro left right st hsrc hidx hwf hg hright hk hex
    obtain ⟨m, hm1, hm2, hmeq⟩ := hex
    have hlr : left < right := by omega
    have hmid : left + (right - left) / 2 <
        (splitNl (src.drop idx.len_bytes)).length := by omega
    have hspec := readLineRaw_spec st (left + (right - left) / 2)
      (by rw [hsrc, hidx]; exact hwf) hg
    rw [hsrc, hidx] at hspec
    obtain ⟨hval, hsrc1, hidx1, hlast1, hg1⟩ := hspec
    rw [dif_pos hmid] at hval
    cases hrl : st.readLineRaw (left + (right - left) / 2) with
    | mk res st1 =>
      rw [hrl] at hval hsrc1 hidx1 hg1
      simp only at hval hsrc1 hidx1 hg1
      subst hval
      rw [bsLoop, dif_pos hlr]
      simp only [hrl]
      cases hf : f ((splitNl (src.drop idx.len_bytes)).getD
          (left + (right - left) / 2) []) with
      | eq => exact ⟨_, rfl⟩
      | lt =>
        have hmgt : left + (right - left) / 2 < m := by
          by_contra hle
          have := hsort m (left + (right - left) / 2) (by omega) hmid
          rw [hmeq, hf] at this
          exact absurd this (by decide)
        exact ih (left + (right - left) / 2 + 1) right st1 hsrc1 hidx1 hwf hg1
          hright (by omega) ⟨m, by omega, hm2, hmeq⟩
      | gt =>
        have hmlt : m < left + (right - left) / 2 := by
          by_contra hle
          have := hsort (left + (right - left) / 2) m (by omega) (by omega)
          rw [hmeq, hf] at this
          exact absurd this (by decide)
        exact ih left (left + (right - left) / 2) st1 hsrc1 hidx1 hwf hg1
          (by omega) (by omega) ⟨m, hm1, hmlt, hmeq⟩

/-! ## Concrete sample data -/

/-- The spec's concrete scenario: the raw source `"a\nbb\nccc"`. -/
def sampleData : List Nat := [97, 10, 98, 98, 10, 99, 99, 99]

theorem sample_build : Index.build sampleData = ⟨[0, 2, 5], 0⟩ := by
  rw [build_eq sampleData (by decide)]
  decide

/-- A fresh `IndexedBufReader` over the raw sample source with its built
index. -/
def sampleSt : IndexedBufReader :=
  IndexedBufReader.new ⟨sampleData, 0, 0⟩ (Index.build sampleData)

theorem sampleSt_eq :
    sampleSt = IndexedBufReader.new ⟨sampleData, 0, 0⟩ ⟨[0, 2, 5], 0⟩ := by
  unfold sampleSt
  rw [sample_build]

/-! ## Claims -/

/-- C1 (code_bug evaluation).  On the raw source `"a\nbb\nccc"`, the
`IndexedBufReader` implementation of `read_current_line` returns the
full index-delimited span of line 0 *including* the terminator:
`read_line_raw(0)` yields `"a\n"` (`[97, 10]`), not the stripped chunk
`"a"` (`[97]`) that the trait documentation in src/lib.rs (`omitting
the \n`), the crate's own tests (`test_no_new_line`,
`test_sequencially`), and the claim require.  The async
`SharedFile::read_current_line` on the same position does strip the
terminator and reports 2 bytes consumed, matching the claim. -/
theorem claim_C1 :
    (sampleSt.readLineRaw 0).1 = .ok [97, 10] ∧
    stripNl [97, 10] = [97] ∧
    ((.ok [97, 10] : Except Error (List Nat)) ≠ .ok [97]) ∧
    (SharedFile.readCurrentLine ⟨sampleData, 0, 0⟩).1 = ([97], 2) := by
  rw [sampleSt_eq]
  exact ⟨by decide, by decide, by decide, by decide⟩

/-- C6 (counterexample).  `parse_index` never produces `MissingIndex`:
on a source shorter than one header it fails with the wrapped I/O error
(`read_exact` hits end of stream), and on a header declaring zero
entries it *succeeds* with a zero-entry index instead of failing. -/
theorem claim_C6_counterexample :
    parseIndexBytes [] = .error .IoError ∧
    ((.error .IoError : Except Error Index) ≠ .error .MissingIndex) ∧
    parseIndexBytes (List.replicate 8 0) = .ok (Index.new []) ∧
    (Index.new []).inner.length = 0 := by
  exact ⟨by decide, by decide, by decide, by decide⟩

/-- C6 (amended).  `parse_index` reads the fixed-size header from the
start of the source and then decodes the body.  When the source is
shorter than one header it fails with `Io` (not `MissingIndex`), and the
open fails before any content is returned; when the header declares zero
entries it succeeds with an empty index (so every subsequent line
request fails with `OutOfBounds` rather than returning content). -/
theorem claim_C6 (src : List Nat) :
    (src.length < 8 → parseIndexBytes src = .error .IoError) ∧
    (8 ≤ src.length → fromLEBytes (src.take 8) = 0 →
      parseIndexBytes src = .ok (Index.new [])) := by
  constructor
  · intro hlen
    have hre : (Reader.seekStart ⟨src, 0, 0⟩ 0).readExact 8 =
        (.error .IoError, Reader.seekStart ⟨src, 0, 0⟩ 0) := by
      unfold Reader.seekStart Reader.readExact
      rw [if_neg (by simp only; omega)]
    unfold parseIndexBytes Index.parse_index Header.decode
    simp only [hre]
  · intro hlen hzero
    have hre : (Reader.seekStart ⟨src, 0, 0⟩ 0).readExact 8 =
        (.ok (src.take 8), { src := src, pos := 8, seeks := 1 }) := by
      unfold Reader.seekStart Reader.readExact
      rw [if_pos (by simp only; omega)]
      rw [List.drop_zero]
    unfold parseIndexBytes Index.parse_index Header.decode Index.decode
    simp only [hre, hzero]
    rfl

theorem claim_C6_witness :
    parseIndexBytes [] = .error .IoError ∧
    parseIndexBytes (List.replicate 9 0) = .ok (Index.new []) :=
  ⟨(claim_C6 []).1 (by decide),
   (claim_C6 (List.replicate 9 0)).2 (by decide) (by decide)⟩

/-- C9 (counterexample).  On empty content a request for line 0 does
fail with `OutOfBounds`, but the reader's fast-path tracking is *not*
left unchanged: `last_line` flips from `none` to `some 0` by the failed
call, contradicting the claim that a failed out-of-bounds request
leaves the reader's state unchanged. -/
theorem claim_C9_counterexample :
    ((IndexedBufReader.new ⟨[], 0, 0⟩ ⟨[], 0⟩).readLineRaw 0).1 =
      .error .OutOfBounds ∧
    ((IndexedBufReader.new ⟨[], 0, 0⟩ ⟨[], 0⟩).readLineRaw 0).2.last_line = some 0 ∧
    (IndexedBufReader.new ⟨[], 0, 0⟩ ⟨[], 0⟩).last_line = none ∧
    Index.build [] = ⟨[], 0⟩ := by
  refine ⟨by decide, by decide, by decide, ?_⟩
  rw [build_eq [] (by decide)]
  decide

/-- C9 (amended).  Every request for `n ≥ total_lines()` — including
every request on empty content, where `total_lines() == 0` — fails with
`OutOfBounds` and performs no I/O at all: the reader position and the
seek count are untouched.  However, the failed call updates the
fast-path tracking: `last_line` becomes `some n`. -/
theorem claim_C9 (st : IndexedBufReader) (n : Nat)
    (hge : st.index.inner.length ≤ n) :
    st.readLineRaw n = (.error .OutOfBounds, { st with last_line := some n }) :=
  readLineRaw_oob st n hge

theorem claim_C9_witness :
    (IndexedBufReader.new ⟨[], 0, 0⟩ ⟨[], 0⟩).readLineRaw 0 =
      (.error .OutOfBounds,
       { IndexedBufReader.new ⟨[], 0, 0⟩ ⟨[], 0⟩ with last_line := some 0 }) :=
  claim_C9 (IndexedBufReader.new ⟨[], 0, 0⟩ ⟨[], 0⟩) 0 (by decide)

/-- Every successful `parse_index` result is an `Index::new` image. -/
theorem parse_index_shape (r : Reader) (idx : Index)
    (h : (Index.parse_index r).1 = .ok idx) : idx = Index.new idx.inner := by
  unfold Index.parse_index Header.decode Index.decode at h
  cases hre : (r.seekStart 0).readExact 8 with
  | mk res r1 =>
    cases res with
    | error e => simp [hre] at h
    | ok bs =>
      simp only [hre] at h
      cases hde : Index.decodeEntries (r1.seekStart HEADER_SIZE) (fromLEBytes bs) with
      | mk res2 r2 =>
        cases res2 with
        | ok inner =>
          simp only [hde, Except.ok.injEq] at h
          subst h
          rfl
        | error e => simp [hde] at h

/-- C10 (confirmed).  An `Index` built by `Index::new` (and hence by
`decode`, which wraps its entries with `Index::new`) has
`len_bytes = HEADER_SIZE + 4n + 1`, exactly the encoded header length
plus the encoded body length (`encode` appends one terminator byte after
the offsets).  After `add` or `extend`, `len_bytes` is recomputed by
`calc_length` as `HEADER_SIZE + 4n`, one byte short of the actual
encoded header-plus-body length — the invariant holds after construction
and decoding but is not preserved by `add` and `extend`. -/
theorem claim_C10 :
    (∀ l : List Nat, (Index.new l).len_bytes = HEADER_SIZE + 4 * l.length + 1 ∧
      (Index.new l).len_bytes =
        (Index.new l).get_header.encode.length + (Index.new l).encode.length) ∧
    (∀ (r : Reader) (idx : Index), (Index.parse_index r).1 = .ok idx →
      idx.len_bytes = HEADER_SIZE + 4 * idx.inner.length + 1) ∧
    (∀ (idx : Index) (x : Nat),
      (idx.add x).len_bytes = HEADER_SIZE + 4 * (idx.inner.length + 1) ∧
      (idx.add x).len_bytes + 1 =
        (idx.add x).get_header.encode.length + (idx.add x).encode.length) ∧
    (∀ (idx : Index) (l : List Nat),
      (idx.extend l).len_bytes = HEADER_SIZE + 4 * (idx.inner.length + l.length) ∧
      (idx.extend l).len_bytes + 1 =
        (idx.extend l).get_header.encode.length + (idx.extend l).encode.length) := by
  refine ⟨fun l => ⟨?_, ?_⟩, fun r idx h => ?_, fun idx x => ⟨?_, ?_⟩,
    fun idx l => ⟨?_, ?_⟩⟩
  · show HEADER_SIZE + (l.length * 4 + 1) = HEADER_SIZE + 4 * l.length + 1
    omega
  · rw [Header.encode, toLEBytes_length, encode_length]
    show HEADER_SIZE + (l.length * 4 + 1) = 8 + (4 * l.length + 1)
    norm_num [HEADER_SIZE]
    omega
  · have hshape := parse_index_shape r idx h
    have hlb : idx.len_bytes = HEADER_SIZE + (idx.inner.length * 4 + 1) :=
      congrArg Index.len_bytes hshape
    omega
  · show HEADER_SIZE + (idx.inner ++ [x]).length * 4 = _
    simp only [List.length_append, List.length_cons, List.length_nil]
    omega
  · rw [Header.encode, toLEBytes_length, encode_length]
    show HEADER_SIZE + (idx.inner ++ [x]).length * 4 + 1 =
      8 + (4 * (idx.inner ++ [x]).length + 1)
    norm_num [HEADER_SIZE]
    omega
  · show HEADER_SIZE + (idx.inner ++ l).length * 4 = _
    simp only [List.length_append]
    omega
  · rw [Header.encode, toLEBytes_length, encode_length]
    show HEADER_SIZE + (idx.inner ++ l).length * 4 + 1 =
      8 + (4 * (idx.inner ++ l).length + 1)
    norm_num [HEADER_SIZE]
    omega

theorem claim_C10_witness :
    (Index.new []).len_bytes = HEADER_SIZE + 4 * (Index.new []).inner.length + 1 :=
  claim_C10.2.1 ⟨List.replicate 8 0, 0, 0⟩ (Index.new []) (by decide)

/-- C5 (counterexample).  For the index built over `"a\n"`, decoding the
encoding (header followed by body, as `write_to` lays them out) yields
`Index::new [0]` whose `len_bytes` is 13, while the built index carries
`len_bytes = 0`; the derived `==` compares both fields, so
`decode(encode(index)) ≠ index`.  Also, `encode` emits the offsets
followed by a single `0x0A` byte and no header: the header is written
separately. -/
theorem claim_C5_counterexample :
    Index.build [97, 10] = ⟨[0], 0⟩ ∧
    parseIndexBytes ((Index.mk [0] 0).get_header.encode ++ (Index.mk [0] 0).encode) =
      .ok ⟨[0], 13⟩ ∧
    ((⟨[0], 13⟩ : Index) ≠ ⟨[0], 0⟩) ∧
    (Index.mk [0] 0).encode = [0, 0, 0, 0, 10] := by
  refine ⟨?_, by decide, by decide, by decide⟩
  rw [build_eq [97, 10] (by decide)]
  decide

/-- C5 (amended).  Decoding the persisted header-plus-body form of any
index whose offsets fit `u32` recovers exactly the offset sequence, but
the decoded index is `Index::new inner` with
`len_bytes = HEADER_SIZE + 4n + 1`, so full structural equality with a
built index (whose `len_bytes` is 0) fails; `encode` itself writes the
offsets fixed-width little-endian in order followed by one terminator
byte, and no header — the header is emitted separately by `write_to`. -/
theorem claim_C5 (inner : List Nat) (lb : Nat)
    (hb : ∀ v ∈ inner, v < U32M) (hn : inner.length < U64M) :
    parseIndexBytes ((Index.mk inner lb).get_header.encode ++ (Index.mk inner lb).encode) =
      .ok (Index.new inner) ∧
    (Index.new inner).inner = inner ∧
    (Index.new inner).len_bytes = HEADER_SIZE + 4 * inner.length + 1 ∧
    (Index.mk inner lb).encode.length = 4 * inner.length + 1 := by
  refine ⟨?_, rfl, ?_, encode_length _⟩
  · unfold parseIndexBytes
    apply parse_index_ok inner [10] hb hn
    rfl
  · show HEADER_SIZE + (inner.length * 4 + 1) = _
    omega

theorem claim_C5_witness :
    parseIndexBytes ((Index.mk [0] 0).get_header.encode ++ (Index.mk [0] 0).encode) =
      .ok (Index.new [0]) ∧
    (Index.new [0]).inner = [0] ∧
    (Index.new [0]).len_bytes = HEADER_SIZE + 4 * 1 + 1 ∧
    (Index.mk [0] 0).encode.length = 4 * 1 + 1 := by
  have h := claim_C5 [0] 0 (by decide) (by decide)
  simpa using h

/-- C8 (confirmed).  `build` scans the source once left-to-right chunk
by chunk, recording the starting offset of every nonempty
terminator-delimited chunk; a trailing terminator produces no extra line
(chunks are never empty); the reader is seeked back to offset 0 before
returning and the source is untouched; `build` is total on content.  On
the spec's concrete source `"a\nbb\nccc"`: offsets `[0,2,5]`,
`total_lines = 3`, `read_line_raw(2)` reads `"ccc"` to end-of-stream,
and `read_line_raw(3)` fails with `OutOfBounds`. -/
theorem claim_C8 :
    Index.build sampleData = ⟨[0, 2, 5], 0⟩ ∧
    (Index.build sampleData).inner.length = 3 ∧
    (sampleSt.readLineRaw 2).1 = .ok [99, 99, 99] ∧
    (sampleSt.readLineRaw 2).2.reader.pos = sampleData.length ∧
    (sampleSt.readLineRaw 3).1 = .error .OutOfBounds ∧
    Index.build (sampleData ++ [10]) = ⟨[0, 2, 5], 0⟩ ∧
    (∀ data : List Nat, (Index.build data).inner.length = (splitNl data).length ∧
      ∀ c ∈ splitNl data, c ≠ []) ∧
    (∀ r : Reader, (Index.buildSt r).2.pos = 0 ∧ (Index.buildSt r).2.src = r.src ∧
      (Index.buildSt r).1 = Index.build r.src) := by
  refine ⟨sample_build, ?_, ?_, ?_, ?_, ?_, ?_, ?_⟩
  · rw [sample_build]
    decide
  · rw [sampleSt_eq]
    decide
  · rw [sampleSt_eq]
    decide
  · rw [sampleSt_eq]
    decide
  · rw [build_eq (sampleData ++ [10]) (by decide)]
    decide
  · intro data
    exact ⟨build_length data, fun c hc => splitNl_ne_nil data c hc⟩
  · intro r
    exact ⟨rfl, rfl, rfl⟩

theorem claim_C8_witness :
    ((Index.build sampleData).inner.length = (splitNl sampleData).length ∧
      ([97, 10] : List Nat) ≠ []) ∧
    (Index.buildSt ⟨sampleData, 3, 0⟩).2.pos = 0 :=
  ⟨⟨(claim_C8.2.2.2.2.2.2.1 sampleData).1,
    (claim_C8.2.2.2.2.2.2.1 sampleData).2 [97, 10] (by decide)⟩,
   (claim_C8.2.2.2.2.2.2.2 ⟨sampleData, 3, 0⟩).1⟩

/-- The full behavioral contract of `MutableIndexedStore` relative to an
abstract entry list `es`: `get` returns exactly the last bytes written
at each position (absent out of range); `insert` appends, returning the
new position; `replace` splices the addressed entry, shifts exactly the
offsets strictly after it by the signed length delta (earlier offsets
and the entry's own offset unshifted), leaves every other position's
content unchanged, and is absent out of range. -/
def MemSpecHolds (m : MemFile) (es : List (List Nat)) : Prop :=
  (∀ p, m.get p = es[p]?) ∧
  (∀ d, es.flatten.length + d.length < U32M →
    (m.insert d).1 = es.length ∧ MemInv (m.insert d).2 (es ++ [d]) ∧
    (m.insert d).2.get es.length = some d) ∧
  (∀ p d, es.length ≤ p → m.replace p d = none) ∧
  (∀ p d, p < es.length → es.flatten.length + d.length < U32M →
    ∃ m2, m.replace p d = some m2 ∧ MemInv m2 (es.set p d) ∧
      m2.get p = some d ∧
      (∀ q, q ≠ p → m2.get q = es[q]?) ∧
      m2.index.inner = m.index.inner.take (p + 1) ++
        (m.index.inner.drop (p + 1)).map
          (fun x => x + d.length - (es.getD p []).length))

/-- C3 (confirmed).  For every `MemFile` representing an abstract entry
list (as every store reachable by `insert`/`replace` from `new` does,
within the `u32` offset range), the `MutableIndexedStore` contract
`MemSpecHolds` holds; `MemInv` is re-established by `insert` and
`replace`, so it propagates along every operation sequence. -/
theorem claim_C3 (m : MemFile) (es : List (List Nat)) (hinv : MemInv m es) :
    MemSpecHolds m es := by
  refine ⟨fun p => mem_get_spec m es hinv p, fun d hb => ?_, fun p d hp =>
    mem_replace_none m es hinv p d hp, fun p d hp hb => ?_⟩
  · obtain ⟨hpos, hinv2⟩ := mem_insert_spec m es hinv d hb
    refine ⟨hpos, hinv2, ?_⟩
    rw [mem_get_spec (m.insert d).2 (es ++ [d]) hinv2 es.length]
    exact List.getElem?_concat_length es d
  · obtain ⟨hrep, hinv2⟩ := mem_replace_spec m es hinv p d hp hb
    refine ⟨_, hrep, hinv2, ?_, ?_, ?_⟩
    · rw [mem_get_spec _ (es.set p d) hinv2 p]
      simp [List.getElem?_set_self, hp]
    · intro q hq
      rw [mem_get_spec _ (es.set p d) hinv2 q]
      exact List.getElem?_set_ne (fun hc => hq hc.symm)
    · show ({ m.index with inner := offsetsFrom 0 (es.set p d) } : Index).inner = _
      show offsetsFrom 0 (es.set p d) = _
      rw [offsetsFrom_set es 0 p d hp, hinv.2.1]

/-- The store holding `["a", "bb", "ccc"]`, as built by three inserts
from `MemFile::new`. -/
def memSample : MemFile := ⟨[97, 98, 98, 99, 99, 99], ⟨[0, 1, 3], 20⟩⟩

/-- The abstract entries of `memSample`. -/
def memEntries : List (List Nat) := [[97], [98, 98], [99, 99, 99]]

theorem claim_C3_witness : MemSpecHolds memSample memEntries :=
  claim_C3 memSample memEntries (by decide)

/-- C4 (counterexample).  A bare `seek_line(0)` (one explicit seek)
followed by `seek_line(1)` issues no second seek although line 0's bytes
were never consumed — the fast path fires on `last_line + 1` alone.  The
reader is then positioned at offset 0, not at line 1's offset, and
`read_current_line(1)` returns `[97, 10, 98]` instead of line 1's span
`[98, 98, 10]`.  This refutes the claim's "exactly when ... line n-1's
bytes were fully consumed". -/
theorem claim_C4_counterexample :
    (sampleSt.seekLine 0).2.reader.seeks = 1 ∧
    ((sampleSt.seekLine 0).2.seekLine 1).1 = .ok () ∧
    ((sampleSt.seekLine 0).2.seekLine 1).2.reader.seeks = 1 ∧
    (sampleSt.seekLine 0).2.reader.pos = 0 ∧
    (((sampleSt.seekLine 0).2.seekLine 1).2.readCurrentLine 1).1 = .ok [97, 10, 98] ∧
    ((.ok [97, 10, 98] : Except Error (List Nat)) ≠ .ok [98, 98, 10]) := by
  rw [sampleSt_eq]
  exact ⟨by decide, by decide, by decide, by decide, by decide, by decide⟩

/-- C4 (amended).  (1) The bytes returned by `read_line_raw(n)` depend
only on the source bytes, the index and `n` — never on the cursor state
— for every reader satisfying the fit conditions, which are
re-established by every read; hence reading lines in any order yields
the same bytes per line.  (2) A request for `last_line + 1` issues no
seek and leaves the reader untouched, regardless of whether the previous
line's bytes were consumed.  (3) Every other in-range request issues
exactly one explicit seek, to `offset(n) + index_byte_length`. -/
theorem claim_C4 (st : IndexedBufReader) (n v : Nat) :
    (WF st.reader.src st.index → Good st →
      ((st.readLineRaw n).1 =
        (if h : n < (splitNl (st.reader.src.drop st.index.len_bytes)).length
          then .ok ((splitNl (st.reader.src.drop st.index.len_bytes)).getD n [])
          else .error .OutOfBounds) ∧
       (st.readLineRaw n).2.reader.src = st.reader.src ∧
       (st.readLineRaw n).2.index = st.index ∧
       Good (st.readLineRaw n).2)) ∧
    (∀ l, st.last_line = some l →
      st.seekLine (l + 1) = (.ok (), { st with last_line := some (l + 1) })) ∧
    ((∀ l, st.last_line = some l → n ≠ l + 1) → st.index.inner[n]? = some v →
      st.seekLine n = (.ok (),
        { st with last_line := some n,
                  reader := { st.reader with
                              pos := v + st.index.len_bytes,
                              seeks := st.reader.seeks + 1 } })) := by
  refine ⟨fun hwf hg => ?_, fun l hl => seekLine_fast st l hl,
    fun hnc hv => seekLine_slow st n v hnc hv⟩
  obtain ⟨h1, h2, h3, _, h5⟩ := readLineRaw_spec st n hwf hg
  exact ⟨h1, h2, h3, h5⟩

theorem claim_C4_witness :
    ((IndexedBufReader.new ⟨sampleData, 0, 0⟩ ⟨[0, 2, 5], 0⟩).readLineRaw 1).1 =
      .ok [98, 98, 10] ∧
    ({ IndexedBufReader.new ⟨sampleData, 0, 0⟩ ⟨[0, 2, 5], 0⟩ with
        last_line := some 0 } : IndexedBufReader).seekLine 1 =
      (.ok (), { IndexedBufReader.new ⟨sampleData, 0, 0⟩ ⟨[0, 2, 5], 0⟩ with
        last_line := some 1 }) ∧
    ((IndexedBufReader.new ⟨sampleData, 0, 0⟩ ⟨[0, 2, 5], 0⟩).seekLine 2).2.reader.pos =
      5 := by
  refine ⟨?_, ?_, ?_⟩
  · have h := (claim_C4 (IndexedBufReader.new ⟨sampleData, 0, 0⟩ ⟨[0, 2, 5], 0⟩) 1 2).1
      (by decide) (by decide)
    rw [h.1]
    decide
  · exact (claim_C4 ({ IndexedBufReader.new ⟨sampleData, 0, 0⟩ ⟨[0, 2, 5], 0⟩ with
      last_line := some 0 } : IndexedBufReader) 1 2).2.1 0 rfl
  · have h := (claim_C4 (IndexedBufReader.new ⟨sampleData, 0, 0⟩ ⟨[0, 2, 5], 0⟩) 2 5).2.2
      (fun l hl => nomatch hl) (by decide)
    rw [h]
    decide

/-- C7 (confirmed).  `binary_search_raw_by` over `[0, total_lines)`
probes `mid = left + (right - left) / 2`, narrows on less/greater and
returns `mid` immediately on equal: (1) whenever it returns `Ok i`,
`compare(line(i)) = Equal`; (2) whenever no line compares equal (in
particular whenever the needle is absent from sorted content) the range
narrows to empty and it fails with `NotFound` (no sortedness hypothesis
is even needed for these two directions); (3) completeness: when the
content is sorted under the comparator (its verdicts over the lines are
monotonically non-decreasing in `ordRank`) and some line compares
equal, the search returns `Ok i` for an `i` with
`compare(line(i)) = Equal`. -/
theorem claim_C7 (f : List Nat → Ordering) (st : IndexedBufReader)
    (hwf : WF st.reader.src st.index) (hg : Good st) :
    (∀ i, (st.binarySearchRawBy f).1 = .ok i →
      i < (splitNl (st.reader.src.drop st.index.len_bytes)).length ∧
      f ((splitNl (st.reader.src.drop st.index.len_bytes)).getD i []) = .eq) ∧
    ((∀ j, j < (splitNl (st.reader.src.drop st.index.len_bytes)).length →
        f ((splitNl (st.reader.src.drop st.index.len_bytes)).getD j []) ≠ .eq) →
      (st.binarySearchRawBy f).1 = .error .NotFound) ∧
    ((∀ j, j < (splitNl (st.reader.src.drop st.index.len_bytes)).length →
        ∀ i, i ≤ j →
        ordRank (f ((splitNl (st.reader.src.drop st.index.len_bytes)).getD i [])) ≤
          ordRank (f ((splitNl (st.reader.src.drop st.index.len_bytes)).getD j []))) →
      (∃ m, m < (splitNl (st.reader.src.drop st.index.len_bytes)).length ∧
        f ((splitNl (st.reader.src.drop st.index.len_bytes)).getD m []) = .eq) →
      ∃ i, (st.binarySearchRawBy f).1 = .ok i ∧
        f ((splitNl (st.reader.src.drop st.index.len_bytes)).getD i []) = .eq) := by
  have hlen : st.total_lines =
      (splitNl (st.reader.src.drop st.index.len_bytes)).length := by
    show st.index.len = _
    unfold Index.len
    rw [hwf.1, offsetsFrom_length]
  unfold IndexedBufReader.binarySearchRawBy
  have hmain := bsLoop_spec f st.reader.src st.index st.total_lines 0 st.total_lines st
    rfl rfl hwf hg (by omega) (by omega)
  refine ⟨hmain.1, hmain.2, fun hsort hex => ?_⟩
  obtain ⟨m, hm, hmeq⟩ := hex
  obtain ⟨i, hi⟩ := bsLoop_complete f st.reader.src st.index
    (fun i j hij hj => hsort j hj i hij) st.total_lines 0 st.total_lines st
    rfl rfl hwf hg (by omega) (by omega) ⟨m, Nat.zero_le _, by omega, hmeq⟩
  exact ⟨i, hi, (hmain.1 i hi).2⟩

/-- A comparator whose needle `"x"` is absent from the sample source. -/
def noMatchCmp : List Nat → Ordering := fun bs => compareL bs [120]

/-- A comparator whose needle is the sample's full line-1 span
`"bb\n"`, present in the sample source. -/
def matchCmp : List Nat → Ordering := fun bs => compareL bs [98, 98, 10]

theorem claim_C7_witness :
    ((IndexedBufReader.new ⟨sampleData, 0, 0⟩ ⟨[0, 2, 5], 0⟩).binarySearchRawBy
      noMatchCmp).1 = .error .NotFound ∧
    ∃ i, ((IndexedBufReader.new ⟨sampleData, 0, 0⟩ ⟨[0, 2, 5], 0⟩).binarySearchRawBy
      matchCmp).1 = .ok i ∧
      matchCmp ((splitNl
        ((IndexedBufReader.new ⟨sampleData, 0, 0⟩ ⟨[0, 2, 5], 0⟩).reader.src.drop
          (IndexedBufReader.new ⟨sampleData, 0, 0⟩ ⟨[0, 2, 5], 0⟩).index.len_bytes)).getD
        i []) = .eq := by
  constructor
  · apply (claim_C7 noMatchCmp (IndexedBufReader.new ⟨sampleData, 0, 0⟩ ⟨[0, 2, 5], 0⟩)
      (by decide) (by decide)).2.1
    decide
  · exact (claim_C7 matchCmp (IndexedBufReader.new ⟨sampleData, 0, 0⟩ ⟨[0, 2, 5], 0⟩)
      (by decide) (by decide)).2.2 (by decide) ⟨1, by decide, by decide⟩

theorem flat4_length (l : List Nat) :
    ((l.map (toLEBytes 4)).flatten).length = 4 * l.length := by
  rw [List.length_flatten, List.map_map]
  have h1 : l.map (List.length ∘ toLEBytes 4) = l.map fun _ => 4 :=
    List.map_congr_left (fun a _ => by simp [toLEBytes_length])
  rw [h1, map_const_sum]

theorem sumLen_splitNl (l : List Nat) : sumLen (splitNl l) = l.length := by
  rw [← length_flatten_eq_sumLen, splitNl_flatten]

theorem good_new (r : Reader) (idx : Index) : Good (IndexedBufReader.new r idx) := rfl

/-- The persistence round trip for a raw byte source, as the code
actually behaves: building the index, serializing with `write_to`, and
reopening the artifact through `parse_index` yields an index with the
same offsets and entry count, and a reader whose every line read returns
the same bytes as the original raw reader; after `write_to` the original
reader's position is reset to offset 0 (the start of the source, not the
pre-call position) and its `last_line` fast-path state is retained. -/
def RoundTripHolds (data : List Nat) : Prop :=
  ∃ idx2 : Index,
    (Index.parse_index
      ⟨((IndexedBufReader.new ⟨data, 0, 0⟩ (Index.build data)).writeTo).1, 0, 0⟩).1 =
        .ok idx2 ∧
    idx2.inner = (Index.build data).inner ∧
    idx2.inner.length = (Index.build data).inner.length ∧
    (∀ n, ((IndexedBufReader.new
        (Index.parse_index
          ⟨((IndexedBufReader.new ⟨data, 0, 0⟩ (Index.build data)).writeTo).1, 0, 0⟩).2
        idx2).readLineRaw n).1 =
      ((IndexedBufReader.new ⟨data, 0, 0⟩ (Index.build data)).readLineRaw n).1) ∧
    ((IndexedBufReader.new ⟨data, 0, 0⟩ (Index.build data)).writeTo).2.reader.pos = 0 ∧
    ((IndexedBufReader.new ⟨data, 0, 0⟩ (Index.build data)).writeTo).2.last_line =
      (IndexedBufReader.new ⟨data, 0, 0⟩ (Index.build data)).last_line

/-- C2 (counterexample).  `write_to` does not restore the source's
pre-call position: on the sample reader, after `read_line_raw(1)` the
position is 5, but after `write_to` it is 0 while `last_line = Some 1`
is retained — so the next sequential request `read_line_raw(2)` takes
the no-seek fast path from the wrong offset and returns the whole
source `"a\nbb\nccc"` instead of line 2's span `"ccc"`. -/
theorem claim_C2_counterexample :
    (sampleSt.readLineRaw 1).2.reader.pos = 5 ∧
    ((sampleSt.readLineRaw 1).2.writeTo).2.reader.pos = 0 ∧
    ((5 : Nat) ≠ 0) ∧
    ((sampleSt.readLineRaw 1).2.writeTo).2.last_line = some 1 ∧
    (((sampleSt.readLineRaw 1).2.writeTo).2.readLineRaw 2).1 = .ok sampleData ∧
    ((.ok sampleData : Except Error (List Nat)) ≠ .ok [99, 99, 99]) := by
  rw [sampleSt_eq]
  exact ⟨by decide, by decide, by decide, by decide, by decide, by decide⟩

/-- C2 (amended).  The round trip holds for every raw source within the
`u32` offset range; the original reader's position after `write_to` is
offset 0, not its pre-call position (see the counterexample for the
resulting fast-path hazard). -/
theorem claim_C2 (data : List Nat) (hlen : data.length < U32M) :
    RoundTripHolds data := by
  have hbuild : Index.build data = ⟨offsetsFrom 0 (splitNl data), 0⟩ :=
    build_eq data hlen
  have hsum : sumLen (splitNl data) = data.length := sumLen_splitNl data
  have hb32 : ∀ v ∈ offsetsFrom 0 (splitNl data), v < U32M := by
    intro v hv
    have := offsetsFrom_mem_bound (splitNl data) 0 v hv
    omega
  have hlenoffs : (offsetsFrom 0 (splitNl data)).length = (splitNl data).length :=
    offsetsFrom_length 0 _
  have hslen : (splitNl data).length ≤ data.length := splitNl_length_le data
  have hUM : U32M < U64M := by norm_num [U32M, U64M]
  have hn64 : (offsetsFrom 0 (splitNl data)).length < U64M := by omega
  have h8 : (toLEBytes 8 (offsetsFrom 0 (splitNl data)).length).length = 8 :=
    toLEBytes_length _ _
  have h4 : (((offsetsFrom 0 (splitNl data)).map (toLEBytes 4)).flatten).length =
      4 * (offsetsFrom 0 (splitNl data)).length := flat4_length _
  have hart : ((IndexedBufReader.new ⟨data, 0, 0⟩ (Index.build data)).writeTo).1 =
      toLEBytes 8 (offsetsFrom 0 (splitNl data)).length ++
        (((offsetsFrom 0 (splitNl data)).map (toLEBytes 4)).flatten ++ ([10] ++ data)) := by
    rw [writeTo_spec]
    show (Index.build data).get_header.encode ++ (Index.build data).encode ++
        data.drop (Index.build data).len_bytes = _
    rw [hbuild]
    show Header.encode ⟨(offsetsFrom 0 (splitNl data)).length⟩ ++
        ((((offsetsFrom 0 (splitNl data)).map (toLEBytes 4)).flatten) ++ [10]) ++
        data.drop 0 = _
    rw [List.drop_zero, Header.encode]
    simp [List.append_assoc]
  have hparse : (Index.parse_index
      ⟨((IndexedBufReader.new ⟨data, 0, 0⟩ (Index.build data)).writeTo).1, 0, 0⟩).1 =
      .ok (Index.new (offsetsFrom 0 (splitNl data))) := by
    rw [hart]
    exact parse_index_ok _ ([10] ++ data) hb32 hn64 _ rfl
  have hdropart :
      (((IndexedBufReader.new ⟨data, 0, 0⟩ (Index.build data)).writeTo).1).drop
        (Index.new (offsetsFrom 0 (splitNl data))).len_bytes = data := by
    rw [hart]
    show (toLEBytes 8 (offsetsFrom 0 (splitNl data)).length ++
        (((offsetsFrom 0 (splitNl data)).map (toLEBytes 4)).flatten ++ ([10] ++ data))).drop
        (HEADER_SIZE + ((offsetsFrom 0 (splitNl data)).length * 4 + 1)) = _
    have hidx : HEADER_SIZE + ((offsetsFrom 0 (splitNl data)).length * 4 + 1) =
        (toLEBytes 8 (offsetsFrom 0 (splitNl data)).length).length +
          ((((offsetsFrom 0 (splitNl data)).map (toLEBytes 4)).flatten).length + 1) := by
      rw [h8, h4]
      show HEADER_SIZE + _ = _
      unfold HEADER_SIZE
      omega
    rw [hidx, drop_append_len, drop_append_len, List.drop_one]
    rfl
  have hwfart : WF ((IndexedBufReader.new ⟨data, 0, 0⟩ (Index.build data)).writeTo).1
      (Index.new (offsetsFrom 0 (splitNl data))) := by
    constructor
    · rw [hdropart]
      rfl
    · rw [hart]
      simp only [List.length_append, h8, h4, List.length_cons, List.length_nil]
      show HEADER_SIZE + ((offsetsFrom 0 (splitNl data)).length * 4 + 1) ≤ _
      unfold HEADER_SIZE
      omega
  refine ⟨Index.new (offsetsFrom 0 (splitNl data)), hparse, ?_, ?_, ?_, ?_, ?_⟩
  · rw [hbuild]
    rfl
  · rw [hbuild]
    rfl
  · intro n
    have hsrc2 : (Index.parse_index
        ⟨((IndexedBufReader.new ⟨data, 0, 0⟩ (Index.build data)).writeTo).1, 0, 0⟩).2.src =
        ((IndexedBufReader.new ⟨data, 0, 0⟩ (Index.build data)).writeTo).1 :=
      parse_index_src _
    have hwf2 : WF (Index.parse_index
        ⟨((IndexedBufReader.new ⟨data, 0, 0⟩ (Index.build data)).writeTo).1, 0, 0⟩).2.src
        (Index.new (offsetsFrom 0 (splitNl data))) := by
      rw [hsrc2]
      exact hwfart
    have hv2 := (readLineRaw_spec (IndexedBufReader.new
        (Index.parse_index
          ⟨((IndexedBufReader.new ⟨data, 0, 0⟩ (Index.build data)).writeTo).1, 0, 0⟩).2
        (Index.new (offsetsFrom 0 (splitNl data)))) n hwf2 (good_new _ _)).1
    have hv0 := (readLineRaw_spec (IndexedBufReader.new ⟨data, 0, 0⟩ (Index.build data))
        n (build_wf data hlen) (good_new _ _)).1
    rw [hv2, hv0]
    simp only [IndexedBufReader.new] at hsrc2 hdropart ⊢
    rw [hsrc2, hdropart]
    simp only [hbuild, List.drop_zero]
  · rw [writeTo_spec]
  · rw [writeTo_spec]

theorem claim_C2_witness : RoundTripHolds sampleData :=
  claim_C2 sampleData (by decide)

end IndexedFile
